import Mathlib

/-!
Verification of the rolling-standard-deviation engines of the Parameta
repository (`src/stdev_test/scripts/`).

The development shallowly embeds the three engines:

* `stdev_solution_a.py` — `IncrementalStdevCalculator`: per-(security, field)
  incremental state (`values`, `timestamps`, `sum`, `sum_sq`,
  `last_timestamp`), gap reset, FIFO eviction, population variance clamped at
  zero, JSON state persistence.
* `stdev_solution.py` — `RollingStdevCalculator` (vectorized): splits each
  security's samples into maximal contiguous hourly runs and takes a trailing
  rolling population standard deviation (`ddof=0`) of size `window` in each
  run.
* `stdev_solution_b.py` — `RollingStdevCalculator` (as-of join): splits into
  contiguous blocks, computes rolling *sample* standard deviations
  (pandas default `ddof=1`, window hardcoded to 20), and attaches to every
  snap in the reporting range the most recent completed-window value within
  7 days via a backward `merge_asof`.

Modelling conventions: timestamps are integers counting hours (one period =
one hour, `pd.Timedelta(hours=1)` = `1`, 7 days = `168`); prices and
accumulator sums are rationals (exact arithmetic stands in for IEEE floats);
`np.sqrt` / pandas `.std` are `Real.sqrt` applied to the rational variance
that each engine computes.  Emitted records carry the variance; the
standard-deviation view is `Option.map Real.sqrt` of it, mirroring
`np.sqrt(variance)` in the source.  A pandas frame sorted by
`(security_id, timestamp)` and grouped by `security_id` is represented as a
list of `(security_id, samples)` groups; the final `sort_values` calls of the
engines are stable sorts that are the identity on these already-sorted
outputs and are therefore not re-applied.
-/

/-- A price sample: one row of the input frame
(`security_id`, `snap_time`, `bid`, `mid`, `ask`). -/
structure Sample where
  sec : String
  ts : ℤ
  bid : ℚ
  mid : ℚ
  ask : ℚ
  deriving DecidableEq, Repr

/-- Per-(security, price-type) calculation state of
`IncrementalStdevCalculator` (`stdev_solution_a.py`, lines 92-99). -/
structure FieldState where
  values : List ℚ
  timestamps : List ℤ
  sum : ℚ
  sum_sq : ℚ
  last_timestamp : Option ℤ
  deriving DecidableEq, Repr

/-- The freshly initialized state for a key
(`stdev_solution_a.py`, lines 92-99). -/
def emptyFieldState : FieldState :=
  { values := [], timestamps := [], sum := 0, sum_sq := 0, last_timestamp := none }

/-- Gap check of `_update_state` (`stdev_solution_a.py`, lines 104-112):
if a previous timestamp exists and the incoming timestamp is not exactly one
hour later, the window contents and both running sums are cleared. -/
def gapReset (s : FieldState) (ts : ℤ) : FieldState :=
  match s.last_timestamp with
  | none => s
  | some lt =>
      if ts = lt + 1 then s
      else { s with values := [], timestamps := [], sum := 0, sum_sq := 0 }

/-- Push of the incoming sample plus FIFO eviction
(`stdev_solution_a.py`, lines 114-126): append the value and timestamp,
add to the running sums, set `last_timestamp`, then pop the oldest element
if the window now exceeds `window_size`. -/
def pushEvict (W : ℕ) (s : FieldState) (v : ℚ) (ts : ℤ) : FieldState :=
  let s2 : FieldState :=
    { values := s.values ++ [v]
      timestamps := s.timestamps ++ [ts]
      sum := s.sum + v
      sum_sq := s.sum_sq + v * v
      last_timestamp := some ts }
  if W < s2.values.length then
    { values := s2.values.tail
      timestamps := s2.timestamps.tail
      sum := s2.sum - s2.values.headD 0
      sum_sq := s2.sum_sq - s2.values.headD 0 * s2.values.headD 0
      last_timestamp := s2.last_timestamp }
  else s2

/-- One loop iteration of `_update_state` acting on the state
(`stdev_solution_a.py`, lines 103-126): gap check, then push/evict. -/
def stepField (W : ℕ) (s : FieldState) (v : ℚ) (ts : ℤ) : FieldState :=
  pushEvict W (gapReset s ts) v ts

/-- Emission of one loop iteration of `_update_state`
(`stdev_solution_a.py`, lines 128-135): when the window holds exactly
`window_size` values, the variance `sum_sq / W - (sum / W) ^ 2` clamped at
zero is emitted (the code then takes `np.sqrt`; see `stdevStream`),
otherwise `None`. -/
def emitVar (W : ℕ) (s : FieldState) : Option ℚ :=
  if s.values.length = W then
    some (max 0 (s.sum_sq / (W : ℚ) - (s.sum / (W : ℚ)) ^ 2))
  else none

/-- The `for value, ts in zip(values, timestamps)` loop of `_update_state`
(`stdev_solution_a.py`, lines 103-137): threads the state and collects one
emission per input pair.  Emissions carry the clamped variance; the code's
`stdevs` list is `np.sqrt` of it, see `stdevStream`. -/
def updateState (W : ℕ) (s : FieldState) : List (ℚ × ℤ) → FieldState × List (Option ℚ)
  | [] => (s, [])
  | (v, ts) :: rest =>
      let s' := stepField W s v ts
      let r := updateState W s' rest
      (r.1, emitVar W s' :: r.2)

/-- The standard-deviation list returned by `_update_state`
(`stdev_solution_a.py`, line 133: `stdevs.append(np.sqrt(variance))`). -/
noncomputable def stdevStream (W : ℕ) (s : FieldState) (xs : List (ℚ × ℤ)) :
    List (Option ℝ) :=
  (updateState W s xs).2.map (Option.map (fun q : ℚ => Real.sqrt (q : ℝ)))

/-! ### Generic list helpers -/

/-- The last `n` elements of a list (the trailing rolling window). -/
def lastN (n : ℕ) (l : List α) : List α := l.drop (l.length - n)

theorem lastN_nil (n : ℕ) : lastN n ([] : List α) = [] := by simp [lastN]

theorem lastN_length (n : ℕ) (l : List α) : (lastN n l).length = min n l.length := by
  simp [lastN]
  omega

theorem lastN_of_length_le {n : ℕ} {l : List α} (h : l.length ≤ n) : lastN n l = l := by
  simp [lastN, Nat.sub_eq_zero_of_le h]

theorem lastN_suffix (n : ℕ) (l : List α) : lastN n l <:+ l :=
  List.drop_suffix _ _

theorem lastN_map (f : α → β) (n : ℕ) (l : List α) :
    lastN n (l.map f) = (lastN n l).map f := by
  simp [lastN, List.map_drop]

/-- Sliding a full window: appending to a list and taking the trailing `n`
elements drops the head of the previous trailing window. -/
theorem lastN_concat_of_le {n : ℕ} {l : List α} (hn : 1 ≤ n) (h : n ≤ l.length)
    (a : α) : lastN n (l ++ [a]) = (lastN n l).tail ++ [a] := by
  have h1 : l.length + 1 - n = (l.length - n) + 1 := by omega
  have h2 : l.length - n + 1 ≤ l.length := by omega
  simp only [lastN, List.length_append, List.length_cons, List.length_nil, h1]
  rw [List.drop_append_of_le_length (by omega), List.tail_drop]

theorem lastN_concat_of_lt {n : ℕ} {l : List α} (h : l.length < n) (a : α) :
    lastN n (l ++ [a]) = l ++ [a] :=
  lastN_of_length_le (by simp; omega)

/-- A suffix that is short enough is a suffix of the corresponding drop. -/
theorem suffix_drop_of_length_le {r l : List α} {k : ℕ} (hs : r <:+ l)
    (hlen : r.length ≤ l.length - k) : r <:+ l.drop k := by
  by_cases hkl : k ≤ l.length
  · obtain ⟨t, ht⟩ := hs
    have hlt : t.length = l.length - r.length := by
      have := congrArg List.length ht
      simp at this
      omega
    have hk : k ≤ t.length := by omega
    refine ⟨t.drop k, ?_⟩
    rw [← ht, List.drop_append_of_le_length hk]
  · have hr : r = [] := by
      refine List.eq_nil_of_length_eq_zero ?_
      omega
    rw [hr]
    exact List.nil_suffix

/-! ### Contiguous runs

The gap rule of all three engines splits each security's time-ordered samples
into maximal contiguous runs: a run boundary occurs wherever consecutive
timestamps do not differ by exactly one hour.  `currentRun` is the run in
progress after scanning a prefix (what the incremental engine's window draws
from); `splitRuns` is the full decomposition (the `gap_group` /`block`
grouping of `stdev_solution.py` lines 44-51 and `stdev_solution_b.py` lines
41-44).  Both are parameterized by the timestamp projection `ts`. -/

/-- Extend the run in progress with one more element: keep extending when the
incoming timestamp is exactly one hour after the last one, otherwise start a
fresh run. -/
def extendRun (ts : α → ℤ) (acc : List α) (p : α) : List α :=
  match acc.getLast? with
  | none => [p]
  | some q => if ts p = ts q + 1 then acc ++ [p] else [p]

/-- The maximal contiguous run that ends at the end of `xs`. -/
def currentRun (ts : α → ℤ) (xs : List α) : List α := xs.foldl (extendRun ts) []

/-- Add one element to a maximal-contiguous-run decomposition: extend the
last run when contiguous, else open a new run. -/
def addRun (ts : α → ℤ) (runs : List (List α)) (p : α) : List (List α) :=
  match runs.getLast? with
  | none => [[p]]
  | some r =>
      match r.getLast? with
      | none => runs.dropLast ++ [[p]]
      | some q =>
          if ts p = ts q + 1 then runs.dropLast ++ [r ++ [p]] else runs ++ [[p]]

/-- Decomposition of a sample list into maximal contiguous runs. -/
def splitRuns (ts : α → ℤ) (xs : List α) : List (List α) := xs.foldl (addRun ts) []

theorem currentRun_append (ts : α → ℤ) (xs : List α) (p : α) :
    currentRun ts (xs ++ [p]) = extendRun ts (currentRun ts xs) p := by
  simp [currentRun, List.foldl_append]

theorem splitRuns_append (ts : α → ℤ) (xs : List α) (p : α) :
    splitRuns ts (xs ++ [p]) = addRun ts (splitRuns ts xs) p := by
  simp [splitRuns, List.foldl_append]

/-- The result of `extendRun` is either the extended run or a fresh
singleton. -/
theorem extendRun_eq_or (ts : α → ℤ) (acc : List α) (p : α) :
    extendRun ts acc p = acc ++ [p] ∨ extendRun ts acc p = [p] := by
  unfold extendRun
  rcases acc.getLast? with _ | q
  · exact Or.inr rfl
  · by_cases hc : ts p = ts q + 1
    · exact Or.inl (by simp [hc])
    · exact Or.inr (by simp [hc])

theorem extendRun_getLast? (ts : α → ℤ) (acc : List α) (p : α) :
    (extendRun ts acc p).getLast? = some p := by
  rcases extendRun_eq_or ts acc p with h | h <;> simp [h, List.getLast?_concat]

/-- The run in progress ends at the last scanned element. -/
theorem currentRun_getLast? (ts : α → ℤ) (xs : List α) :
    (currentRun ts xs).getLast? = xs.getLast? := by
  induction xs using List.reverseRecOn with
  | nil => rfl
  | append_singleton l p ih =>
      rw [currentRun_append, extendRun_getLast?, List.getLast?_concat]

theorem currentRun_map (tsb : β → ℤ) (f : α → β) (tsa : α → ℤ)
    (hf : ∀ a, tsb (f a) = tsa a) (xs : List α) :
    currentRun tsb (xs.map f) = (currentRun tsa xs).map f := by
  induction xs using List.reverseRecOn with
  | nil => rfl
  | append_singleton l p ih =>
      rw [List.map_append, List.map_singleton, currentRun_append, currentRun_append, ih]
      unfold extendRun
      rw [List.getLast?_map]
      rcases (currentRun tsa l).getLast? with _ | q
      · rfl
      · simp only [Option.map_some', hf]
        by_cases hc : tsa p = tsa q + 1 <;> simp [hc]

theorem currentRun_suffix (ts : α → ℤ) (xs : List α) : currentRun ts xs <:+ xs := by
  induction xs using List.reverseRecOn with
  | nil => exact List.nil_suffix
  | append_singleton l p ih =>
      rcases extendRun_eq_or ts (currentRun ts l) p with h | h <;>
        rw [currentRun_append, h]
      · obtain ⟨u, hu⟩ := ih
        exact ⟨u, by rw [← List.append_assoc, hu]⟩
      · exact List.suffix_append l [p]

theorem currentRun_ne_nil (ts : α → ℤ) {xs : List α} (h : xs ≠ []) :
    currentRun ts xs ≠ [] := by
  intro hc
  have h2 := currentRun_getLast? ts xs
  rw [hc] at h2
  simp only [List.getLast?_nil] at h2
  exact h (List.getLast?_eq_none_iff.mp h2.symm)

/-! ### Characterization of the incremental engine's state

After any prefix of the per-field sample stream, the state of
`_update_state` is exactly: the trailing `window_size` elements of the
contiguous run in progress, together with their exact sum and sum of
squares, and the last scanned timestamp. -/

/-- A state whose contents are exactly the window `w` (values, timestamps,
exact sum and sum of squares) with a given last timestamp. -/
def winState (w : List (ℚ × ℤ)) (lt : Option ℤ) : FieldState :=
  { values := w.map Prod.fst
    timestamps := w.map Prod.snd
    sum := (w.map Prod.fst).sum
    sum_sq := (w.map (fun p => p.1 * p.1)).sum
    last_timestamp := lt }

/-- Sliding a bounded window: append, and drop the oldest element if the
capacity `W` is exceeded. -/
def slideWin (W : ℕ) (w : List (ℚ × ℤ)) (p : ℚ × ℤ) : List (ℚ × ℤ) :=
  if w.length < W then w ++ [p] else (w ++ [p]).tail

/-- The window the incremental engine holds after scanning `xs`: the trailing
`W` elements of the contiguous run in progress. -/
def windowOf (W : ℕ) (xs : List (ℚ × ℤ)) : List (ℚ × ℤ) :=
  lastN W (currentRun Prod.snd xs)

/-- The predicted state after scanning `xs` from a cold start. -/
def predState (W : ℕ) (xs : List (ℚ × ℤ)) : FieldState :=
  winState (windowOf W xs) (xs.getLast?.map Prod.snd)

theorem predState_nil (W : ℕ) : predState W [] = emptyFieldState := by
  unfold predState winState windowOf currentRun
  simp [lastN_nil, emptyFieldState]

theorem gapReset_none {s : FieldState} (h : s.last_timestamp = none) (t : ℤ) :
    gapReset s t = s := by
  unfold gapReset
  rw [h]

theorem gapReset_contiguous {s : FieldState} {lt : ℤ} (h : s.last_timestamp = some lt)
    {t : ℤ} (hc : t = lt + 1) : gapReset s t = s := by
  unfold gapReset
  rw [h]
  exact if_pos hc

theorem gapReset_gap {s : FieldState} {lt : ℤ} (h : s.last_timestamp = some lt)
    {t : ℤ} (hc : t ≠ lt + 1) :
    gapReset s t = { s with values := [], timestamps := [], sum := 0, sum_sq := 0 } := by
  unfold gapReset
  rw [h]
  exact if_neg hc

theorem slideWin_lastN (W : ℕ) (r : List (ℚ × ℤ)) (p : ℚ × ℤ) :
    slideWin W (lastN W r) p = lastN W (r ++ [p]) := by
  unfold slideWin
  by_cases hlt : r.length < W
  · rw [lastN_of_length_le (le_of_lt hlt), if_pos (by simpa using hlt),
      lastN_concat_of_lt hlt]
  · push_neg at hlt
    have hlen : (lastN W r).length = W := by rw [lastN_length]; omega
    rw [if_neg (by omega)]
    rcases Nat.eq_zero_or_pos W with hW | hW
    · subst hW
      have h0 : lastN 0 r = [] := by
        have := lastN_length 0 r
        simpa using List.eq_nil_of_length_eq_zero (by omega)
      have h0' : lastN 0 (r ++ [p]) = [] := by
        have := lastN_length 0 (r ++ [p])
        exact List.eq_nil_of_length_eq_zero (by omega)
      simp [h0, h0']
    · rw [lastN_concat_of_le hW hlt p]
      have hne : lastN W r ≠ [] := by
        intro hc
        rw [hc] at hlen
        simp at hlen
        omega
      rcases List.exists_cons_of_ne_nil hne with ⟨a, l, hal⟩
      simp [hal]

theorem pushEvict_winState (W : ℕ) (w : List (ℚ × ℤ)) (lt : Option ℤ)
    (v : ℚ) (t : ℤ) (hw : w.length ≤ W) :
    pushEvict W (winState w lt) v t = winState (slideWin W w (v, t)) (some t) := by
  unfold pushEvict winState slideWin
  by_cases hlt : w.length < W
  · rw [if_neg (by simp; omega), if_pos hlt]
    simp [List.map_append, List.sum_append]
  · have hww : w.length = W := le_antisymm hw (not_lt.mp hlt)
    rw [if_pos (by simp; omega), if_neg hlt]
    rcases w with _ | ⟨a, l⟩
    · simp
    · simp [List.map_append, List.sum_append, List.map_tail]
      constructor <;> ring

/-- One engine step from the predicted state lands on the predicted state of
the extended stream: the heart of the window/run correspondence. -/
theorem stepField_predState (W : ℕ) (xs : List (ℚ × ℤ)) (v : ℚ) (t : ℤ) :
    stepField W (predState W xs) v t = predState W (xs ++ [(v, t)]) := by
  unfold stepField
  have hslide0 : slideWin W [] ((v : ℚ), t) = lastN W [(v, t)] := by
    have h := slideWin_lastN W [] (v, t)
    rw [lastN_nil] at h
    rw [h, List.nil_append]
  rcases hxs : xs.getLast? with _ | q
  · have hnil : xs = [] := List.getLast?_eq_none_iff.mp hxs
    subst hnil
    rw [predState_nil]
    rw [gapReset_none (show emptyFieldState.last_timestamp = none from rfl) t]
    have hempty : emptyFieldState = winState [] none := rfl
    rw [hempty, pushEvict_winState W [] none v t (Nat.zero_le W), hslide0]
    have hcr : currentRun Prod.snd [((v : ℚ), t)] = [(v, t)] := rfl
    unfold predState windowOf
    rw [List.nil_append, hcr]
    rfl
  · have hpred : predState W xs = winState (windowOf W xs) (some q.2) := by
      unfold predState
      rw [hxs]
      rfl
    have hplast : (predState W xs).last_timestamp = some q.2 := by
      rw [hpred]
      rfl
    have hlast : (currentRun Prod.snd xs).getLast? = some q := by
      rw [currentRun_getLast?, hxs]
    have hwlen : (windowOf W xs).length ≤ W := by
      unfold windowOf
      rw [lastN_length]
      omega
    have hlastapp : ((xs ++ [((v : ℚ), t)]).getLast?).map Prod.snd = some t := by
      rw [List.getLast?_concat]
      rfl
    by_cases hc : t = q.2 + 1
    · rw [gapReset_contiguous hplast hc, hpred, pushEvict_winState W _ _ v t hwlen]
      have hext : extendRun Prod.snd (currentRun Prod.snd xs) ((v : ℚ), t) =
          currentRun Prod.snd xs ++ [(v, t)] := by
        unfold extendRun
        rw [hlast]
        exact if_pos hc
      unfold predState windowOf
      rw [hlastapp, currentRun_append, hext, ← slideWin_lastN]
    · rw [gapReset_gap hplast hc, hpred]
      have hclear : ({ winState (windowOf W xs) (some q.2) with
          values := [], timestamps := [], sum := 0, sum_sq := 0 } : FieldState) =
          winState [] (some q.2) := rfl
      rw [hclear, pushEvict_winState W [] _ v t (Nat.zero_le W), hslide0]
      have hext : extendRun Prod.snd (currentRun Prod.snd xs) ((v : ℚ), t) = [(v, t)] := by
        unfold extendRun
        rw [hlast]
        exact if_neg hc
      unfold predState windowOf
      rw [hlastapp, currentRun_append, hext]

/-- Splitting the per-field loop of `_update_state`: processing a
concatenation is processing the first part, then processing the second from
the resulting state; emissions concatenate (`stdev_solution_a.py`, lines
103-137). -/
theorem updateState_append (W : ℕ) (s : FieldState) (xs ys : List (ℚ × ℤ)) :
    updateState W s (xs ++ ys) =
      ((updateState W (updateState W s xs).1 ys).1,
        (updateState W s xs).2 ++ (updateState W (updateState W s xs).1 ys).2) := by
  induction xs generalizing s with
  | nil => simp [updateState]
  | cons p rest ih =>
      rcases p with ⟨v, ts⟩
      simp only [List.cons_append, updateState, List.append_eq]
      rw [ih]

theorem updateState_length (W : ℕ) (s : FieldState) (xs : List (ℚ × ℤ)) :
    (updateState W s xs).2.length = xs.length := by
  induction xs generalizing s with
  | nil => rfl
  | cons p rest ih =>
      rcases p with ⟨v, ts⟩
      simp only [updateState, List.length_cons]
      rw [ih]

/-- The state of the incremental engine after scanning `xs` from a cold
start is exactly the trailing-window state `predState`. -/
theorem updateState_fst (W : ℕ) (xs : List (ℚ × ℤ)) :
    (updateState W emptyFieldState xs).1 = predState W xs := by
  induction xs using List.reverseRecOn with
  | nil => rw [predState_nil]; rfl
  | append_singleton l p ih =>
      rcases p with ⟨v, t⟩
      rw [updateState_append]
      show (updateState W (updateState W emptyFieldState l).1 [(v, t)]).1 = _
      simp only [updateState]
      rw [ih, stepField_predState]

/-! ### Variance formulas

`mean`/`varPop` are the mathematical content of pandas
`rolling(...).std(ddof=0)` (mean of squared deviations, divisor `n`), and
`varSamp` of `.std()` with the default `ddof=1` (divisor `n - 1`), both at
the variance level; the engines' standard deviations are their square roots.
`varPop` coincides with the moments formula
`sum_sq / n - (sum / n)²` used by the incremental engine, and is nonnegative,
so the `max(0, ...)` clamp is the identity on it. -/

def mean (xs : List ℚ) : ℚ := xs.sum / xs.length

/-- Population variance (divisor `n`), as the mean of squared deviations. -/
def varPop (xs : List ℚ) : ℚ := (xs.map (fun x => (x - mean xs) ^ 2)).sum / xs.length

/-- Sample variance (divisor `n - 1`), the pandas `ddof=1` default used by
`stdev_solution_b.py` line 56-59. -/
def varSamp (xs : List ℚ) : ℚ :=
  (xs.map (fun x => (x - mean xs) ^ 2)).sum / ((xs.length : ℚ) - 1)

theorem sum_sub_sq (c : ℚ) (xs : List ℚ) :
    (xs.map (fun x => (x - c) ^ 2)).sum =
      (xs.map (fun x => x * x)).sum - 2 * c * xs.sum + (xs.length : ℚ) * c ^ 2 := by
  induction xs with
  | nil => simp
  | cons a l ih =>
      simp only [List.map_cons, List.sum_cons, List.length_cons, ih]
      push_cast
      ring

theorem varPop_eq_moments (xs : List ℚ) :
    varPop xs = (xs.map (fun x => x * x)).sum / (xs.length : ℚ) -
      (xs.sum / (xs.length : ℚ)) ^ 2 := by
  rcases xs with _ | ⟨a, l⟩
  · simp [varPop]
  · have hn : ((a :: l).length : ℚ) ≠ 0 := by
      simp
      positivity
    unfold varPop mean
    rw [sum_sub_sq]
    field_simp
    ring

theorem varPop_nonneg (xs : List ℚ) : 0 ≤ varPop xs := by
  unfold varPop
  refine div_nonneg (List.sum_nonneg ?_) (by positivity)
  intro x hx
  rcases List.mem_map.mp hx with ⟨y, _, rfl⟩
  positivity

theorem max_zero_moments (xs : List ℚ) :
    max 0 ((xs.map (fun x => x * x)).sum / (xs.length : ℚ) -
      (xs.sum / (xs.length : ℚ)) ^ 2) = varPop xs := by
  rw [← varPop_eq_moments]
  exact max_eq_right (varPop_nonneg xs)

/-- The emission of the incremental engine at the predicted state: a value
is emitted exactly when the run in progress has at least `window_size`
elements, and the value is the population variance of the trailing window. -/
theorem emitVar_predState (W : ℕ) (xs : List (ℚ × ℤ)) :
    emitVar W (predState W xs) =
      if W ≤ (currentRun Prod.snd xs).length then
        some (varPop ((windowOf W xs).map Prod.fst))
      else none := by
  have hwlen : (windowOf W xs).length = min W (currentRun Prod.snd xs).length := by
    unfold windowOf
    exact lastN_length W _
  unfold emitVar predState winState
  simp only [List.length_map]
  by_cases hW : W ≤ (currentRun Prod.snd xs).length
  · have hlen : (windowOf W xs).length = W := by omega
    rw [if_pos (by omega), if_pos hW]
    have hsq : (List.map (fun p => p.1 * p.1) (windowOf W xs)).sum =
        (((windowOf W xs).map Prod.fst).map (fun x => x * x)).sum := by
      rw [List.map_map]
      rfl
    have hWcast : (W : ℚ) = (((windowOf W xs).map Prod.fst).length : ℚ) := by
      simp [hlen]
    rw [hsq, hWcast, max_zero_moments]
  · rw [if_neg (by omega), if_neg hW]

/-- Scanning one more sample appends one emission, characterized by the run
in progress and the trailing window. -/
theorem updateState_concat_out (W : ℕ) (xs : List (ℚ × ℤ)) (p : ℚ × ℤ) :
    (updateState W emptyFieldState (xs ++ [p])).2 =
      (updateState W emptyFieldState xs).2 ++
        [emitVar W (predState W (xs ++ [p]))] := by
  rcases p with ⟨v, t⟩
  rw [updateState_append]
  show _ ++ (updateState W (updateState W emptyFieldState xs).1 [(v, t)]).2 = _
  simp only [updateState]
  rw [updateState_fst, stepField_predState]

/-! ### Maximal-run decomposition lemmas -/

theorem mem_of_getLast?_eq {l : List α} {a : α} (h : l.getLast? = some a) : a ∈ l := by
  have hne : l ≠ [] := by
    intro hc
    rw [hc] at h
    simp at h
  rw [List.getLast?_eq_getLast l hne] at h
  obtain rfl : l.getLast hne = a := by injection h
  exact List.getLast_mem hne

theorem addRun_eq_of (ts : α → ℤ) {runs : List (List α)} {r : List α} {q : α}
    (h1 : runs.getLast? = some r) (h2 : r.getLast? = some q) (p : α) :
    addRun ts runs p =
      if ts p = ts q + 1 then runs.dropLast ++ [r ++ [p]] else runs ++ [[p]] := by
  unfold addRun
  split
  · next heq => rw [h1] at heq; cases heq
  · next r' heq =>
      rw [h1] at heq
      cases heq
      split
      · next heq2 => rw [h2] at heq2; cases heq2
      · next q' heq2 =>
          rw [h2] at heq2
          cases heq2
          rfl

theorem extendRun_eq_of (ts : α → ℤ) {r : List α} {q : α} (h : r.getLast? = some q)
    (p : α) : extendRun ts r p = if ts p = ts q + 1 then r ++ [p] else [p] := by
  unfold extendRun
  split
  · next heq => rw [h] at heq; cases heq
  · next q' heq =>
      rw [h] at heq
      cases heq
      rfl

theorem splitRuns_getLast?_eq (ts : α → ℤ) {xs : List α} (h : xs ≠ []) :
    (splitRuns ts xs).getLast? = some (currentRun ts xs) := by
  induction xs using List.reverseRecOn with
  | nil => exact absurd rfl h
  | append_singleton l p ih =>
      rcases List.eq_nil_or_concat l with hl | ⟨l', q, hlq⟩
      · subst hl
        rfl
      · have hlne : l ≠ [] := by
          subst hlq
          simp
        have hql : l.getLast? = some q := by
          subst hlq
          rw [List.concat_eq_append]
          exact List.getLast?_concat l'
        have hrlast : (currentRun ts l).getLast? = some q := by
          rw [currentRun_getLast?, hql]
        rw [splitRuns_append, addRun_eq_of ts (ih hlne) hrlast p, currentRun_append,
          extendRun_eq_of ts hrlast p]
        by_cases hc : ts p = ts q + 1
        · rw [if_pos hc, if_pos hc, List.getLast?_concat]
        · rw [if_neg hc, if_neg hc, List.getLast?_concat]

theorem splitRuns_ne_nil (ts : α → ℤ) {xs : List α} (h : xs ≠ []) :
    splitRuns ts xs ≠ [] := by
  intro hc
  have := splitRuns_getLast?_eq ts h
  rw [hc] at this
  simp at this

theorem splitRuns_decomp (ts : α → ℤ) {xs : List α} (h : xs ≠ []) :
    splitRuns ts xs = (splitRuns ts xs).dropLast ++ [currentRun ts xs] := by
  have hne := splitRuns_ne_nil ts h
  have hlast := splitRuns_getLast?_eq ts h
  rw [List.getLast?_eq_getLast _ hne] at hlast
  injection hlast with hlast2
  conv_lhs => rw [← List.dropLast_append_getLast hne]
  rw [hlast2]

theorem splitRuns_concat_cont (ts : α → ℤ) {xs : List α} {q : α}
    (hq : xs.getLast? = some q) {p : α} (hc : ts p = ts q + 1) :
    splitRuns ts (xs ++ [p]) =
      (splitRuns ts xs).dropLast ++ [currentRun ts xs ++ [p]] := by
  have hne : xs ≠ [] := by
    intro h
    rw [h] at hq
    simp at hq
  have hrlast : (currentRun ts xs).getLast? = some q := by
    rw [currentRun_getLast?, hq]
  rw [splitRuns_append, addRun_eq_of ts (splitRuns_getLast?_eq ts hne) hrlast p,
    if_pos hc]

theorem splitRuns_concat_gap (ts : α → ℤ) {xs : List α} {q : α}
    (hq : xs.getLast? = some q) {p : α} (hc : ts p ≠ ts q + 1) :
    splitRuns ts (xs ++ [p]) = splitRuns ts xs ++ [[p]] := by
  have hne : xs ≠ [] := by
    intro h
    rw [h] at hq
    simp at hq
  have hrlast : (currentRun ts xs).getLast? = some q := by
    rw [currentRun_getLast?, hq]
  rw [splitRuns_append, addRun_eq_of ts (splitRuns_getLast?_eq ts hne) hrlast p,
    if_neg hc]

/-! ### Result rows -/

/-- A result row of the incremental engine (`stdev_solution_a.py`, lines
170-181): one row per in-range snap, standard deviations possibly `None`.
The `Option ℚ` fields carry the emitted variance; the engine's standard
deviation is its square root (see `stdevStream`). -/
structure RowOpt where
  security_id : String
  ts : ℤ
  bid_stdev : Option ℚ
  mid_stdev : Option ℚ
  ask_stdev : Option ℚ
  deriving DecidableEq, Repr

/-- A result row with non-null standard deviations for all three price
types, at the variance level. -/
structure Row where
  security_id : String
  ts : ℤ
  bid_stdev : ℚ
  mid_stdev : ℚ
  ask_stdev : ℚ
  deriving DecidableEq, Repr

/-- The rows whose three standard deviations are all non-null (the
`dropna` view of an engine's output). -/
def denseRows (rows : List RowOpt) : List Row :=
  rows.filterMap (fun r =>
    match r.bid_stdev, r.mid_stdev, r.ask_stdev with
    | some b, some m, some a => some ⟨r.security_id, r.ts, b, m, a⟩
    | _, _, _ => none)

/-- The `zip(group['timestamp'], bid_stdevs, mid_stdevs, ask_stdevs)` loop
of `IncrementalStdevCalculator.process` (`stdev_solution_a.py`, lines
170-181), before the range filter. -/
def zipRows (sec : String) : List ℤ → List (Option ℚ) → List (Option ℚ) →
    List (Option ℚ) → List RowOpt
  | t :: ts', b :: bs, m :: ms, a :: ws =>
      ⟨sec, t, b, m, a⟩ :: zipRows sec ts' bs ms ws
  | _, _, _, _ => []

theorem zipRows_append (sec : String) (t1 : List ℤ) (b1 m1 a1 : List (Option ℚ))
    (t2 : List ℤ) (b2 m2 a2 : List (Option ℚ)) (hb : b1.length = t1.length)
    (hm : m1.length = t1.length) (ha : a1.length = t1.length) :
    zipRows sec (t1 ++ t2) (b1 ++ b2) (m1 ++ m2) (a1 ++ a2) =
      zipRows sec t1 b1 m1 a1 ++ zipRows sec t2 b2 m2 a2 := by
  induction t1 generalizing b1 m1 a1 with
  | nil =>
      obtain rfl : b1 = [] := List.eq_nil_of_length_eq_zero (by simpa using hb)
      obtain rfl : m1 = [] := List.eq_nil_of_length_eq_zero (by simpa using hm)
      obtain rfl : a1 = [] := List.eq_nil_of_length_eq_zero (by simpa using ha)
      rfl
  | cons t tl ih =>
      rcases b1 with _ | ⟨b, bs⟩
      · simp at hb
      rcases m1 with _ | ⟨m, ms⟩
      · simp at hm
      rcases a1 with _ | ⟨a, ws⟩
      · simp at ha
      simp only [List.cons_append, zipRows, List.append_eq]
      rw [ih bs ms ws (by simpa using hb) (by simpa using hm) (by simpa using ha)]

theorem ts_mem_of_mem_zipRows {sec : String} {r : RowOpt} :
    ∀ {tl : List ℤ} {bs ms ws : List (Option ℚ)},
      r ∈ zipRows sec tl bs ms ws → r.ts ∈ tl := by
  intro tl
  induction tl with
  | nil => intro bs ms ws h; cases bs <;> cases ms <;> cases ws <;> simp [zipRows] at h
  | cons t tl ih =>
      intro bs ms ws h
      rcases bs with _ | ⟨b, bs⟩
      · simp [zipRows] at h
      rcases ms with _ | ⟨m, ms⟩
      · simp [zipRows] at h
      rcases ws with _ | ⟨a, ws⟩
      · simp [zipRows] at h
      simp only [zipRows, List.mem_cons] at h
      rcases h with rfl | h
      · exact List.mem_cons_self _ _
      · exact List.mem_cons_of_mem _ (ih h)

/-! ### The vectorized reference engine (`stdev_solution.py`)

For each security the code builds an hourly grid from the first to the last
snap of the filtered range, marks missing hours, and groups the present rows
by `gap_group` — which realizes exactly the maximal-contiguous-run
decomposition `splitRuns` for strictly time-ordered hourly snaps.  In each
run it takes `rolling(window, min_periods=window).std(ddof=0)` — defined at
position `i` only when `i + 1 ≥ window`, over the trailing `window` rows —
masks to the requested range, and drops null rows. -/

/-- Per-run emission (`stdev_solution.py`, lines 51-74) with the two
`continue` guards and the mask/`dropna` steps fused into one per-position
condition (see `runEmit` for the guarded version). -/
def runEmitCore (W : ℕ) (startT endT : ℤ) (sec : String) (run : List Sample) :
    List Row :=
  (List.range run.length).filterMap (fun i =>
    match (run.take (i + 1)).getLast? with
    | none => none
    | some s =>
        if W ≤ i + 1 ∧ startT ≤ s.ts ∧ s.ts ≤ endT then
          some { security_id := sec, ts := s.ts
                 bid_stdev := varPop ((lastN W (run.take (i + 1))).map Sample.bid)
                 mid_stdev := varPop ((lastN W (run.take (i + 1))).map Sample.mid)
                 ask_stdev := varPop ((lastN W (run.take (i + 1))).map Sample.ask) }
        else none)

/-- Per-run emission with the source's guards: `if len(sequence) < window:
continue` and `if not mask.any(): continue`
(`stdev_solution.py`, lines 52-64). -/
def runEmit (W : ℕ) (startT endT : ℤ) (sec : String) (run : List Sample) :
    List Row :=
  if run.length < W then []
  else if run.all (fun s => !(decide (startT ≤ s.ts) && decide (s.ts ≤ endT))) then []
  else runEmitCore W startT endT sec run

/-- The two `continue` guards of the vectorized engine are redundant: a run
shorter than the window emits nothing position-wise, and a run with no
in-range snap emits nothing position-wise. -/
theorem runEmit_eq_core (W : ℕ) (startT endT : ℤ) (sec : String)
    (run : List Sample) :
    runEmit W startT endT sec run = runEmitCore W startT endT sec run := by
  unfold runEmit
  by_cases h1 : run.length < W
  · rw [if_pos h1]
    symm
    unfold runEmitCore
    rw [List.filterMap_eq_nil_iff]
    intro i hi
    rw [List.mem_range] at hi
    rcases hl : (run.take (i + 1)).getLast? with _ | s
    · rfl
    · exact if_neg (by rintro ⟨hW, -⟩; omega)
  · rw [if_neg h1]
    by_cases h2 : run.all (fun s => !(decide (startT ≤ s.ts) && decide (s.ts ≤ endT)))
    · rw [if_pos h2]
      symm
      unfold runEmitCore
      rw [List.filterMap_eq_nil_iff]
      intro i hi
      rcases hl : (run.take (i + 1)).getLast? with _ | s
      · rfl
      · refine if_neg ?_
        rintro ⟨-, hin1, hin2⟩
        have hmem : s ∈ run := List.take_subset _ _ (mem_of_getLast?_eq hl)
        have := List.all_eq_true.mp h2 s hmem
        simp at this
        omega
    · rw [if_neg h2]

theorem runEmitCore_concat (W : ℕ) (startT endT : ℤ) (sec : String)
    (run : List Sample) (p : Sample) :
    runEmitCore W startT endT sec (run ++ [p]) =
      runEmitCore W startT endT sec run ++
        (if W ≤ run.length + 1 ∧ startT ≤ p.ts ∧ p.ts ≤ endT then
          [{ security_id := sec, ts := p.ts
             bid_stdev := varPop ((lastN W (run ++ [p])).map Sample.bid)
             mid_stdev := varPop ((lastN W (run ++ [p])).map Sample.mid)
             ask_stdev := varPop ((lastN W (run ++ [p])).map Sample.ask) }]
        else []) := by
  unfold runEmitCore
  rw [List.length_append, List.length_cons, List.length_nil, Nat.zero_add,
    List.range_succ, List.filterMap_append]
  congr 1
  · refine List.filterMap_congr ?_
    intro i hi
    rw [List.mem_range] at hi
    rw [List.take_append_of_le_length (by omega)]
  · have htake : (run ++ [p]).take (run.length + 1) = run ++ [p] :=
      List.take_of_length_le (by simp)
    simp only [List.filterMap, htake, List.getLast?_concat]
    by_cases hc : W ≤ run.length + 1 ∧ startT ≤ p.ts ∧ p.ts ≤ endT
    · rw [if_pos hc, if_pos hc]
    · rw [if_neg hc, if_neg hc]

/-- Emission over a full run decomposition: the `results.append(...)` /
`pd.concat` accumulation of `stdev_solution.py` (lines 30, 74, 79). -/
def runsEmit (W : ℕ) (startT endT : ℤ) (sec : String)
    (runs : List (List Sample)) : List Row :=
  (runs.map (runEmitCore W startT endT sec)).flatten

/-- The row contributed by the newest sample `p`, whose trailing window sits
at the end of the run in progress `r'`. -/
def newestRow (W : ℕ) (startT endT : ℤ) (sec : String) (r' : List Sample)
    (p : Sample) : List Row :=
  if W ≤ r'.length ∧ startT ≤ p.ts ∧ p.ts ≤ endT then
    [{ security_id := sec, ts := p.ts
       bid_stdev := varPop ((lastN W r').map Sample.bid)
       mid_stdev := varPop ((lastN W r').map Sample.mid)
       ask_stdev := varPop ((lastN W r').map Sample.ask) }]
  else []

theorem runEmitCore_singleton (W : ℕ) (startT endT : ℤ) (sec : String)
    (p : Sample) :
    runEmitCore W startT endT sec [p] = newestRow W startT endT sec [p] p := by
  have h := runEmitCore_concat W startT endT sec [] p
  simp only [List.nil_append] at h
  rw [h]
  unfold newestRow
  simp [runEmitCore]

theorem runEmitCore_concat_newest (W : ℕ) (startT endT : ℤ) (sec : String)
    (r : List Sample) (p : Sample) :
    runEmitCore W startT endT sec (r ++ [p]) =
      runEmitCore W startT endT sec r ++
        newestRow W startT endT sec (r ++ [p]) p := by
  rw [runEmitCore_concat]
  unfold newestRow
  rw [show (r ++ [p]).length = r.length + 1 from by simp]

theorem runsEmit_splitRuns_concat (W : ℕ) (startT endT : ℤ) (sec : String)
    (ys : List Sample) (p : Sample) :
    runsEmit W startT endT sec (splitRuns Sample.ts (ys ++ [p])) =
      runsEmit W startT endT sec (splitRuns Sample.ts ys) ++
        newestRow W startT endT sec (currentRun Sample.ts (ys ++ [p])) p := by
  rcases List.eq_nil_or_concat ys with rfl | ⟨l', q, hlq⟩
  · have h1 : splitRuns Sample.ts ([] ++ [p]) = [[p]] := rfl
    have h2 : currentRun Sample.ts ([] ++ [p]) = [p] := rfl
    rw [h1, h2]
    unfold runsEmit
    simp [splitRuns, runEmitCore_singleton]
  · have hq : ys.getLast? = some q := by
      rw [hlq, List.concat_eq_append]
      exact List.getLast?_concat l'
    have hysne : ys ≠ [] := by
      rw [hlq]
      simp
    have hrlast : (currentRun Sample.ts ys).getLast? = some q := by
      rw [currentRun_getLast?, hq]
    have hcur : currentRun Sample.ts (ys ++ [p]) =
        extendRun Sample.ts (currentRun Sample.ts ys) p := currentRun_append _ ys p
    by_cases hc : p.ts = q.ts + 1
    · have hcur2 : currentRun Sample.ts (ys ++ [p]) =
          currentRun Sample.ts ys ++ [p] := by
        rw [hcur, extendRun_eq_of Sample.ts hrlast p, if_pos hc]
      rw [splitRuns_concat_cont Sample.ts hq hc, hcur2]
      unfold runsEmit
      rw [List.map_append, List.flatten_append]
      conv_rhs =>
        rw [splitRuns_decomp Sample.ts hysne, List.map_append, List.flatten_append,
          List.append_assoc]
      congr 1
      simp only [List.map_cons, List.map_nil, List.flatten_cons, List.flatten_nil,
        List.append_nil]
      exact runEmitCore_concat_newest W startT endT sec _ p
    · have hcur2 : currentRun Sample.ts (ys ++ [p]) = [p] := by
        rw [hcur, extendRun_eq_of Sample.ts hrlast p, if_neg hc]
      rw [splitRuns_concat_gap Sample.ts hq hc, hcur2]
      unfold runsEmit
      rw [List.map_append, List.flatten_append]
      congr 1
      simp [runEmitCore_singleton]

/-! ### The incremental engine's per-security rows -/

/-- Projection of one security's samples to a per-field `(value, timestamp)`
stream, as passed to `_update_state`
(`stdev_solution_a.py`, lines 165-167). -/
def fieldPairs (f : Sample → ℚ) (ss : List Sample) : List (ℚ × ℤ) :=
  ss.map (fun s => (f s, s.ts))

/-- The row list `IncrementalStdevCalculator.process` builds for one
security before the range filter (`stdev_solution_a.py`, lines 164-171),
from a cold start. -/
def rawRowsA (W : ℕ) (sec : String) (ys : List Sample) : List RowOpt :=
  zipRows sec (ys.map Sample.ts)
    (updateState W emptyFieldState (fieldPairs Sample.bid ys)).2
    (updateState W emptyFieldState (fieldPairs Sample.mid ys)).2
    (updateState W emptyFieldState (fieldPairs Sample.ask ys)).2

/-- The reporting-range filter `if ts >= start and ts <= end`
(`stdev_solution_a.py`, line 174). -/
def inRangeRow (startT endT : ℤ) (r : RowOpt) : Bool :=
  decide (startT ≤ r.ts) && decide (r.ts ≤ endT)

theorem currentRun_fieldPairs (f : Sample → ℚ) (zs : List Sample) :
    currentRun Prod.snd (fieldPairs f zs) =
      (currentRun Sample.ts zs).map (fun s => (f s, s.ts)) :=
  currentRun_map Prod.snd (fun s => (f s, s.ts)) Sample.ts (fun _ => rfl) zs

theorem windowOf_fieldPairs (W : ℕ) (f : Sample → ℚ) (zs : List Sample) :
    (windowOf W (fieldPairs f zs)).map Prod.fst =
      (lastN W (currentRun Sample.ts zs)).map f := by
  unfold windowOf
  rw [currentRun_fieldPairs, lastN_map, List.map_map]
  rfl

theorem denseRows_append (xs ys : List RowOpt) :
    denseRows (xs ++ ys) = denseRows xs ++ denseRows ys :=
  List.filterMap_append xs ys _

/-- One more sample appends one row to the per-security row list of the
incremental engine. -/
theorem rawRowsA_concat (W : ℕ) (sec : String) (l : List Sample) (p : Sample) :
    rawRowsA W sec (l ++ [p]) =
      rawRowsA W sec l ++
        [⟨sec, p.ts, emitVar W (predState W (fieldPairs Sample.bid (l ++ [p]))),
          emitVar W (predState W (fieldPairs Sample.mid (l ++ [p]))),
          emitVar W (predState W (fieldPairs Sample.ask (l ++ [p])))⟩] := by
  have hfp : ∀ f : Sample → ℚ,
      fieldPairs f (l ++ [p]) = fieldPairs f l ++ [(f p, p.ts)] := by
    intro f
    unfold fieldPairs
    rw [List.map_append]
    rfl
  have hout : ∀ f : Sample → ℚ,
      (updateState W emptyFieldState (fieldPairs f (l ++ [p]))).2 =
        (updateState W emptyFieldState (fieldPairs f l)).2 ++
          [emitVar W (predState W (fieldPairs f (l ++ [p])))] := by
    intro f
    rw [hfp f, updateState_concat_out, ← hfp f]
  have hts : (l ++ [p]).map Sample.ts = l.map Sample.ts ++ [p.ts] := by
    rw [List.map_append]
    rfl
  have hlen : ∀ f : Sample → ℚ,
      (updateState W emptyFieldState (fieldPairs f l)).2.length =
        (l.map Sample.ts).length := by
    intro f
    rw [updateState_length]
    unfold fieldPairs
    simp
  unfold rawRowsA
  rw [hout Sample.bid, hout Sample.mid, hout Sample.ask, hts,
    zipRows_append sec _ _ _ _ _ _ _ _ (hlen _) (hlen _) (hlen _)]
  rfl

/-- Per-security equivalence core: the non-null, in-range rows of the
incremental engine are exactly the vectorized engine's per-run emissions,
position for position and value for value. -/
theorem denseRows_rawRowsA (W : ℕ) (startT endT : ℤ) (sec : String)
    (ys : List Sample) :
    denseRows ((rawRowsA W sec ys).filter (inRangeRow startT endT)) =
      runsEmit W startT endT sec (splitRuns Sample.ts ys) := by
  induction ys using List.reverseRecOn with
  | nil => rfl
  | append_singleton l p ih =>
      have hE : ∀ f : Sample → ℚ,
          emitVar W (predState W (fieldPairs f (l ++ [p]))) =
            if W ≤ (currentRun Sample.ts (l ++ [p])).length then
              some (varPop ((lastN W (currentRun Sample.ts (l ++ [p]))).map f))
            else none := by
        intro f
        rw [emitVar_predState, currentRun_fieldPairs, List.length_map,
          windowOf_fieldPairs]
      rw [rawRowsA_concat, List.filter_append, denseRows_append,
        runsEmit_splitRuns_concat, ih]
      congr 1
      rw [hE Sample.bid, hE Sample.mid, hE Sample.ask]
      by_cases hin1 : startT ≤ p.ts
      · by_cases hin2 : p.ts ≤ endT
        · by_cases hr : W ≤ (currentRun Sample.ts (l ++ [p])).length
          · rw [if_pos hr, if_pos hr, if_pos hr]
            unfold newestRow
            rw [if_pos ⟨hr, hin1, hin2⟩]
            simp [denseRows, inRangeRow, List.filter, hin1, hin2]
          · rw [if_neg hr, if_neg hr, if_neg hr]
            unfold newestRow
            have hncond : ¬(W ≤ (currentRun Sample.ts (l ++ [p])).length ∧
                startT ≤ p.ts ∧ p.ts ≤ endT) := fun hcon => hr hcon.1
            rw [if_neg hncond]
            simp [denseRows, inRangeRow, List.filter, hin1, hin2]
        · unfold newestRow
          have hncond : ¬(W ≤ (currentRun Sample.ts (l ++ [p])).length ∧
              startT ≤ p.ts ∧ p.ts ≤ endT) := fun hcon => hin2 hcon.2.2
          rw [if_neg hncond]
          simp [denseRows, inRangeRow, List.filter, hin1, hin2]
      · unfold newestRow
        have hncond : ¬(W ≤ (currentRun Sample.ts (l ++ [p])).length ∧
            startT ≤ p.ts ∧ p.ts ≤ endT) := fun hcon => hin1 hcon.2.1
        rw [if_neg hncond]
        simp [denseRows, inRangeRow, List.filter, hin1]

/-- Per-security processing of `IncrementalStdevCalculator.process`
(`stdev_solution_a.py`, lines 161-181): filter to the 7-day lookback before
`start` (no upper bound), run `_update_state` for the three price types from
the given per-field states, zip the rows, and keep rows inside
`[start, end]`.  Returns the rows and the three updated field states. -/
def processEntityA (W : ℕ) (startT endT : ℤ) (sec : String) (ss : List Sample)
    (sb sm sa : FieldState) :
    List RowOpt × FieldState × FieldState × FieldState :=
  let kept := ss.filter (fun s => decide (startT - 168 ≤ s.ts))
  let rb := updateState W sb (fieldPairs Sample.bid kept)
  let rm := updateState W sm (fieldPairs Sample.mid kept)
  let ra := updateState W sa (fieldPairs Sample.ask kept)
  ((zipRows sec (kept.map Sample.ts) rb.2 rm.2 ra.2).filter (inRangeRow startT endT),
    rb.1, rm.1, ra.1)

/-- Per-security processing of the vectorized engine
(`stdev_solution.py`, lines 22-74): filter to `[start - 7 days, end]`, split
into maximal contiguous hourly runs, and emit the rolling `ddof=0` window
statistics per run, masked to `[start, end]`. -/
def processEntitySol (W : ℕ) (startT endT : ℤ) (sec : String)
    (ss : List Sample) : List Row :=
  let kept := ss.filter (fun s => decide (startT - 168 ≤ s.ts) && decide (s.ts ≤ endT))
  ((splitRuns Sample.ts kept).map (runEmit W startT endT sec)).flatten

theorem processEntitySol_eq_runsEmit (W : ℕ) (startT endT : ℤ) (sec : String)
    (ss : List Sample) :
    processEntitySol W startT endT sec ss =
      runsEmit W startT endT sec (splitRuns Sample.ts
        (ss.filter (fun s => decide (startT - 168 ≤ s.ts) && decide (s.ts ≤ endT)))) := by
  unfold processEntitySol runsEmit
  have hfun : runEmit W startT endT sec = runEmitCore W startT endT sec :=
    funext (runEmit_eq_core W startT endT sec)
  rw [hfun]

/-- A time-sorted list decomposes as its early part followed by its late
part. -/
theorem sorted_filter_decomp {l : List Sample}
    (h : l.Pairwise (fun a b => a.ts < b.ts)) (c : ℤ) :
    l = l.filter (fun s => decide (s.ts ≤ c)) ++
        l.filter (fun s => !decide (s.ts ≤ c)) := by
  induction l with
  | nil => rfl
  | cons a t ih =>
      have hhead := (List.pairwise_cons.mp h).1
      have hrest := (List.pairwise_cons.mp h).2
      by_cases hc : a.ts ≤ c
      · simp only [List.filter_cons, decide_eq_true hc, Bool.not_true,
          if_true, if_false, cond_true, cond_false]
        conv_lhs => rw [ih hrest]
        simp [hc]
      · have hall : ∀ x ∈ t, ¬x.ts ≤ c := by
          intro x hx
          have := hhead x hx
          omega
        have hf1 : t.filter (fun s => decide (s.ts ≤ c)) = [] := by
          rw [List.filter_eq_nil_iff]
          intro x hx
          simpa using hall x hx
        have hf2 : t.filter (fun s => !decide (s.ts ≤ c)) = t := by
          rw [List.filter_eq_self]
          intro x hx
          simpa using hall x hx
        simp [List.filter_cons, hc, hf1, hf2]

theorem filter_zipRows_late (startT endT : ℤ) (sec : String) (tl : List ℤ)
    (bs ms ws : List (Option ℚ)) (h : ∀ t ∈ tl, ¬t ≤ endT) :
    (zipRows sec tl bs ms ws).filter (inRangeRow startT endT) = [] := by
  rw [List.filter_eq_nil_iff]
  intro r hr
  have hts := ts_mem_of_mem_zipRows hr
  have h2 := h r.ts hts
  unfold inRangeRow
  simp
  intro
  omega

/-- Samples after `end` do not contribute in-range rows, and do not disturb
the rows of the earlier samples. -/
theorem filter_rawRowsA_drop_late (W : ℕ) (startT endT : ℤ) (sec : String)
    (ys zs : List Sample) (hz : ∀ s ∈ zs, ¬s.ts ≤ endT) :
    (rawRowsA W sec (ys ++ zs)).filter (inRangeRow startT endT) =
      (rawRowsA W sec ys).filter (inRangeRow startT endT) := by
  have hsplit : rawRowsA W sec (ys ++ zs) =
      rawRowsA W sec ys ++
        zipRows sec (zs.map Sample.ts)
          (updateState W (updateState W emptyFieldState (fieldPairs Sample.bid ys)).1
            (fieldPairs Sample.bid zs)).2
          (updateState W (updateState W emptyFieldState (fieldPairs Sample.mid ys)).1
            (fieldPairs Sample.mid zs)).2
          (updateState W (updateState W emptyFieldState (fieldPairs Sample.ask ys)).1
            (fieldPairs Sample.ask zs)).2 := by
    unfold rawRowsA
    have hfp : ∀ f : Sample → ℚ,
        fieldPairs f (ys ++ zs) = fieldPairs f ys ++ fieldPairs f zs := by
      intro f
      unfold fieldPairs
      rw [List.map_append]
    have hts : (ys ++ zs).map Sample.ts = ys.map Sample.ts ++ zs.map Sample.ts :=
      List.map_append _ ys zs
    rw [hfp Sample.bid, hfp Sample.mid, hfp Sample.ask, hts,
      updateState_append, updateState_append, updateState_append]
    exact zipRows_append sec _ _ _ _ _ _ _ _
      (by rw [updateState_length]; unfold fieldPairs; simp)
      (by rw [updateState_length]; unfold fieldPairs; simp)
      (by rw [updateState_length]; unfold fieldPairs; simp)
  rw [hsplit, List.filter_append, filter_zipRows_late startT endT sec _ _ _ _
    (by
      intro t ht
      rcases List.mem_map.mp ht with ⟨s, hs, rfl⟩
      exact hz s hs),
    List.append_nil]

/-- Per-security incremental/vectorized equivalence: on a strictly
time-ordered sample list, the non-null rows of the incremental engine
(`stdev_solution_a.py`) coincide — keys and values — with the rows of the
vectorized engine (`stdev_solution.py`). -/
theorem processEntityA_eq_sol (W : ℕ) (startT endT : ℤ) (sec : String)
    (ss : List Sample) (hsort : ss.Pairwise (fun a b => a.ts < b.ts)) :
    denseRows (processEntityA W startT endT sec ss
        emptyFieldState emptyFieldState emptyFieldState).1 =
      processEntitySol W startT endT sec ss := by
  have hA : (processEntityA W startT endT sec ss
      emptyFieldState emptyFieldState emptyFieldState).1 =
      (rawRowsA W sec (ss.filter (fun s => decide (startT - 168 ≤ s.ts)))).filter
        (inRangeRow startT endT) := rfl
  rw [hA, processEntitySol_eq_runsEmit]
  have hsA : (ss.filter (fun s => decide (startT - 168 ≤ s.ts))).Pairwise
      (fun a b => a.ts < b.ts) := hsort.filter _
  have hdec := sorted_filter_decomp hsA endT
  rw [show rawRowsA W sec (ss.filter (fun s => decide (startT - 168 ≤ s.ts))) =
      rawRowsA W sec
        ((ss.filter (fun s => decide (startT - 168 ≤ s.ts))).filter
            (fun s => decide (s.ts ≤ endT)) ++
          (ss.filter (fun s => decide (startT - 168 ≤ s.ts))).filter
            (fun s => !decide (s.ts ≤ endT))) from by rw [← hdec]]
  rw [filter_rawRowsA_drop_late W startT endT sec _ _
    (by
      intro s hs
      have := (List.mem_filter.mp hs).2
      simpa using this)]
  rw [denseRows_rawRowsA]
  have hk : (ss.filter (fun s => decide (startT - 168 ≤ s.ts))).filter
      (fun s => decide (s.ts ≤ endT)) =
      ss.filter (fun s => decide (startT - 168 ≤ s.ts) && decide (s.ts ≤ endT)) := by
    rw [List.filter_filter]
    exact List.filter_congr (fun a _ => Bool.and_comm _ _)
  rw [hk]

/-! ### The state dictionary and the full incremental engine

`calculation_state` is a Python dict keyed by the string
`f"{security_id}_{price_type}"`; it is modelled as an insertion-ordered
association list.  Reading a missing key together with the lazy
initialization of `_update_state` (lines 92-99) is `getState` with the
empty-state default; writing back is `setState` (replace in place, else
append), matching dict update semantics. -/

abbrev StateMap := List (String × FieldState)

/-- `_get_state_key` (`stdev_solution_a.py`, lines 36-38). -/
def stateKey (sec fieldName : String) : String := sec ++ "_" ++ fieldName

def getState (m : StateMap) (k : String) : FieldState :=
  (m.lookup k).getD emptyFieldState

def setState (m : StateMap) (k : String) (v : FieldState) : StateMap :=
  match m with
  | [] => [(k, v)]
  | (k', v') :: rest => if k' = k then (k, v) :: rest else (k', v') :: setState rest k v

theorem getState_set_same (m : StateMap) (k : String) (v : FieldState) :
    getState (setState m k v) k = v := by
  induction m with
  | nil => simp [setState, getState, List.lookup]
  | cons e rest ih =>
      rcases e with ⟨k', v'⟩
      unfold setState
      by_cases hk : k' = k
      · rw [if_pos hk]
        simp [getState, List.lookup]
      · rw [if_neg hk]
        unfold getState List.lookup
        rw [show (k == k') = false by simpa using fun hc => hk hc.symm]
        exact ih

theorem getState_set_ne (m : StateMap) {k k2 : String} (v : FieldState)
    (h : k2 ≠ k) : getState (setState m k v) k2 = getState m k2 := by
  induction m with
  | nil =>
      simp only [setState, getState, List.lookup]
      rw [show (k2 == k) = false by simpa using h]
  | cons e rest ih =>
      rcases e with ⟨k', v'⟩
      unfold setState
      by_cases hk : k' = k
      · rw [if_pos hk]
        unfold getState List.lookup
        rw [show (k2 == k) = false by simpa using h, show (k2 == k') = false by
          simpa using fun hc => h (hc.trans hk)]
      · rw [if_neg hk]
        unfold getState List.lookup
        by_cases hk2 : k2 = k'
        · rw [show (k2 == k') = true by simpa using hk2]
        · rw [show (k2 == k') = false by simpa using hk2]
          exact ih

/-- The key scheme `f"{security_id}_{price_type}"` separates securities and
price types of equal name length. -/
theorem stateKey_inj {s1 s2 f1 f2 : String} (hlen : f1.length = f2.length)
    (h : stateKey s1 f1 = stateKey s2 f2) : s1 = s2 ∧ f1 = f2 := by
  unfold stateKey at h
  have hd := congrArg String.data h
  rw [String.data_append, String.data_append, String.data_append,
    String.data_append] at hd
  rw [List.append_assoc, List.append_assoc] at hd
  have hlen2 : ("_".data ++ f1.data).length = ("_".data ++ f2.data).length := by
    simp only [List.length_append]
    have : f1.data.length = f2.data.length := hlen
    omega
  rcases List.append_inj' hd hlen2 with ⟨hs, hf⟩
  refine ⟨String.ext hs, String.ext ?_⟩
  simpa using hf

theorem stateKey_ne {s1 s2 f1 f2 : String} (hlen : f1.length = f2.length)
    (h : s1 ≠ s2) : stateKey s1 f1 ≠ stateKey s2 f2 :=
  fun hc => h (stateKey_inj hlen hc).1

theorem stateKey_ne_field {s : String} {f1 f2 : String}
    (hlen : f1.length = f2.length) (h : f1 ≠ f2) :
    stateKey s f1 ≠ stateKey s f2 :=
  fun hc => h (stateKey_inj hlen hc).2

/-- `IncrementalStdevCalculator.process` (`stdev_solution_a.py`, lines
139-202) over the per-security groups of the loaded frame: thread the state
dict through the groups (skipping securities with no sample in the lookback
horizon, which the `groupby` over the filtered frame never visits), collect
the per-security rows, and return them with the final state — the state that
is then serialized to the snapshot file. -/
def processA (W : ℕ) (startT endT : ℤ) :
    StateMap → List (String × List Sample) → List RowOpt × StateMap
  | m, [] => ([], m)
  | m, (sec, ss) :: gs =>
      let kept := ss.filter (fun s => decide (startT - 168 ≤ s.ts))
      if kept.isEmpty then processA W startT endT m gs
      else
        let r := processEntityA W startT endT sec ss
          (getState m (stateKey sec "bid")) (getState m (stateKey sec "mid"))
          (getState m (stateKey sec "ask"))
        let m' := setState (setState (setState m (stateKey sec "bid") r.2.1)
          (stateKey sec "mid") r.2.2.1) (stateKey sec "ask") r.2.2.2
        let rest := processA W startT endT m' gs
        (r.1 ++ rest.1, rest.2)

/-- `RollingStdevCalculator.process` of the vectorized engine
(`stdev_solution.py`, lines 18-79) over the per-security groups. -/
def processSol (W : ℕ) (startT endT : ℤ)
    (groups : List (String × List Sample)) : List Row :=
  (groups.map (fun g => processEntitySol W startT endT g.1 g.2)).flatten

theorem processEntitySol_nil_of (W : ℕ) (startT endT : ℤ) (sec : String)
    (ss : List Sample)
    (h : ss.filter (fun s => decide (startT - 168 ≤ s.ts)) = []) :
    processEntitySol W startT endT sec ss = [] := by
  unfold processEntitySol
  have hcomb : ss.filter (fun s => decide (startT - 168 ≤ s.ts) && decide (s.ts ≤ endT)) = [] := by
    calc ss.filter (fun s => decide (startT - 168 ≤ s.ts) && decide (s.ts ≤ endT))
        = ss.filter (fun s => decide (s.ts ≤ endT) && decide (startT - 168 ≤ s.ts)) :=
          List.filter_congr (fun a _ => Bool.and_comm _ _)
      _ = (ss.filter (fun s => decide (startT - 168 ≤ s.ts))).filter
            (fun s => decide (s.ts ≤ endT)) := (List.filter_filter _ _).symm
      _ = [] := by rw [h]; rfl
  rw [hcomb]
  simp [splitRuns]

/-- Full-stream incremental/vectorized equivalence: starting from an empty
state dict, over well-formed groups (distinct securities, strictly
time-ordered samples), the non-null rows of
`IncrementalStdevCalculator.process` equal the rows of the vectorized
`RollingStdevCalculator.process`, security by security, key by key, value by
value. -/
theorem processA_eq_processSol (W : ℕ) (startT endT : ℤ)
    (groups : List (String × List Sample)) (m : StateMap)
    (hfresh : ∀ g ∈ groups, getState m (stateKey g.1 "bid") = emptyFieldState ∧
      getState m (stateKey g.1 "mid") = emptyFieldState ∧
      getState m (stateKey g.1 "ask") = emptyFieldState)
    (hdist : groups.Pairwise (fun g g' => g.1 ≠ g'.1))
    (hsort : ∀ g ∈ groups, g.2.Pairwise (fun a b => a.ts < b.ts)) :
    denseRows (processA W startT endT m groups).1 =
      processSol W startT endT groups := by
  induction groups generalizing m with
  | nil => rfl
  | cons g gs ih =>
      rcases g with ⟨sec, ss⟩
      have hsol : processSol W startT endT ((sec, ss) :: gs) =
          processEntitySol W startT endT sec ss ++ processSol W startT endT gs := by
        unfold processSol
        rw [List.map_cons, List.flatten_cons]
      rw [hsol]
      unfold processA
      by_cases hke : (ss.filter (fun s => decide (startT - 168 ≤ s.ts))).isEmpty
      · rw [if_pos hke]
        rw [processEntitySol_nil_of W startT endT sec ss (List.isEmpty_iff.mp hke),
          List.nil_append]
        exact ih m (fun g hg => hfresh g (List.mem_cons_of_mem _ hg))
          (List.pairwise_cons.mp hdist).2
          (fun g hg => hsort g (List.mem_cons_of_mem _ hg))
      · rw [if_neg hke]
        simp only []
        rw [denseRows_append]
        obtain ⟨hb, hm, ha⟩ := hfresh (sec, ss) (List.mem_cons_self _ _)
        rw [hb, hm, ha]
        rw [processEntityA_eq_sol W startT endT sec ss
          (hsort (sec, ss) (List.mem_cons_self _ _))]
        congr 1
        have hne : ∀ g ∈ gs, ∀ f1 f2 : String, f1.length = f2.length →
            stateKey g.1 f1 ≠ stateKey sec f2 := by
          intro g hg f1 f2 hlen
          exact stateKey_ne hlen ((List.pairwise_cons.mp hdist).1 g hg).symm
        refine ih _ ?_ (List.pairwise_cons.mp hdist).2
          (fun g hg => hsort g (List.mem_cons_of_mem _ hg))
        intro g hg
        have h3 : ∀ fn : String, fn.length = 3 →
            getState (setState (setState (setState m (stateKey sec "bid")
              (processEntityA W startT endT sec ss emptyFieldState emptyFieldState
                emptyFieldState).2.1) (stateKey sec "mid")
              (processEntityA W startT endT sec ss emptyFieldState emptyFieldState
                emptyFieldState).2.2.1) (stateKey sec "ask")
              (processEntityA W startT endT sec ss emptyFieldState emptyFieldState
                emptyFieldState).2.2.2) (stateKey g.1 fn) =
            getState m (stateKey g.1 fn) := by
          intro fn hlen3
          rw [getState_set_ne _ _ (hne g hg fn "ask" hlen3),
            getState_set_ne _ _ (hne g hg fn "mid" hlen3),
            getState_set_ne _ _ (hne g hg fn "bid" hlen3)]
        obtain ⟨hb2, hm2, ha2⟩ := hfresh g (List.mem_cons_of_mem _ hg)
        exact ⟨by rw [h3 "bid" rfl]; exact hb2, by rw [h3 "mid" rfl]; exact hm2,
          by rw [h3 "ask" rfl]; exact ha2⟩

/-! ### The as-of-join engine (`stdev_solution_b.py`)

Per security the code splits the samples into contiguous blocks
(`diff().ne(1h)` cumulative sum, lines 41-44), computes rolling sample
standard deviations with the pandas default `ddof=1` and the hardcoded
window 20 (lines 47-58), collects the non-null completion rows into
`stdev_df` (lines 61-66), and then attaches to every snap of the reporting
range the most recent completion at or before it within 7 days via
`merge_asof(..., direction='backward', tolerance=7d)` (lines 69-83); snaps
with no such completion keep null statistics.  `drop_duplicates` (line 64)
is the identity for a security whose snap times are distinct and is not
re-applied. -/

/-- The window-completion rows `stdev_df` of `stdev_solution_b.py` (lines
47-66) for one security, as `(timestamp, bid, mid, ask)` sample-variance
tuples (the engine's standard deviations are their square roots). -/
def completionsB (ss : List Sample) : List (ℤ × ℚ × ℚ × ℚ) :=
  ((splitRuns Sample.ts ss).map (fun run =>
    (List.range run.length).filterMap (fun i =>
      match (run.take (i + 1)).getLast? with
      | none => none
      | some s =>
          if 20 ≤ i + 1 then
            some (s.ts, varSamp ((lastN 20 (run.take (i + 1))).map Sample.bid),
              varSamp ((lastN 20 (run.take (i + 1))).map Sample.mid),
              varSamp ((lastN 20 (run.take (i + 1))).map Sample.ask))
          else none))).flatten

/-- `RollingStdevCalculator.process` of `stdev_solution_b.py` (lines 23-85)
for one security: one output row per snap in `[start, end]`, carrying the
most recent completion within 7 days before it (backward as-of join), null
if there is none. -/
def processEntityB (startT endT : ℤ) (sec : String) (ss : List Sample) :
    List RowOpt :=
  let comps := completionsB ss
  (ss.filter (fun s => decide (startT ≤ s.ts) && decide (s.ts ≤ endT))).map
    (fun s =>
      match (comps.filter (fun c => decide (c.1 ≤ s.ts) &&
          decide (s.ts - c.1 ≤ 168))).getLast? with
      | some c => ⟨sec, s.ts, some c.2.1, some c.2.2.1, some c.2.2.2⟩
      | none => ⟨sec, s.ts, none, none, none⟩)

/-- The as-of-join engine over the per-security groups. -/
def processB (startT endT : ℤ) (groups : List (String × List Sample)) :
    List RowOpt :=
  (groups.map (fun g => processEntityB startT endT g.1 g.2)).flatten

/-- The `(entity, timestamp)` keys of a list of non-null result rows. -/
def resultKeys (rows : List Row) : List (String × ℤ) :=
  rows.map (fun r => (r.security_id, r.ts))

/-! ### The state store (`load_data` / `process` persistence)

The snapshot is JSON: an object keyed by `f"{security_id}_{price_type}"`
whose values are objects with fields `values` (list of floats), `timestamps`
(list of ISO timestamp strings, modelled as their hour values by the `time`
constructor), `sum`, `sum_sq` (floats), and `last_timestamp` (ISO string or
null).  `load_data` (`stdev_solution_a.py`, lines 47-73) catches only
`json.JSONDecodeError` and `IOError`; any exception raised while walking a
syntactically valid document — `.items()` on a non-object
(`AttributeError`), a missing key (`KeyError`), indexing a non-object
(`TypeError`), or an unparsable timestamp (`ValueError`) — propagates.
The numeric slots are modelled at the types `save` writes; storing
non-numeric JSON there would not fault the load itself but poisons the
later arithmetic, which is outside the modelled behaviour. -/

inductive Json where
  | null
  | num (q : ℚ)
  | str (s : String)
  | time (t : ℤ)
  | arr (items : List Json)
  | obj (fields : List (String × Json))

/-- The Python exceptions that can escape `load_data`. -/
inductive PyErr where
  | attributeError
  | keyError (k : String)
  | typeError
  | valueError
  deriving DecidableEq, Repr

/-- Dictionary subscript `state[k]`: `KeyError` when missing. -/
def getItem (fields : List (String × Json)) (k : String) : Except PyErr Json :=
  match fields.lookup k with
  | some v => .ok v
  | none => .error (.keyError k)

/-- Reading the elements of `state['values']` as the floats `save` writes. -/
def decodeNums : List Json → Except PyErr (List ℚ)
  | [] => .ok []
  | .num q :: rest => do
      let r ← decodeNums rest
      return q :: r
  | _ :: _ => .error .typeError

/-- Reading `state['values']` as the list of floats `save` writes. -/
def decodeNumList : Json → Except PyErr (List ℚ)
  | .arr items => decodeNums items
  | _ => .error .typeError

/-- Reading the entries of `[pd.Timestamp(ts) for ts in ...]`: an
unparsable entry raises. -/
def decodeTimes : List Json → Except PyErr (List ℤ)
  | [] => .ok []
  | .time t :: rest => do
      let r ← decodeTimes rest
      return t :: r
  | _ :: _ => .error .valueError

/-- Reading `[pd.Timestamp(ts) for ts in state['timestamps']]`: iterating a
non-list raises `TypeError`. -/
def decodeTimeList : Json → Except PyErr (List ℤ)
  | .arr items => decodeTimes items
  | _ => .error .typeError

def decodeNum : Json → Except PyErr ℚ
  | .num q => .ok q
  | _ => .error .typeError

/-- Reading `pd.Timestamp(state['last_timestamp']) if state['last_timestamp']
else None`: null is falsy and yields `None`. -/
def decodeOptTime : Json → Except PyErr (Option ℤ)
  | .null => .ok none
  | .time t => .ok (some t)
  | _ => .error .valueError

/-- Decoding one per-key state record (`stdev_solution_a.py`, lines 62-69). -/
def decodeFieldState (j : Json) : Except PyErr FieldState :=
  match j with
  | .obj fields => do
      let vals ← decodeNumList (← getItem fields "values")
      let tss ← decodeTimeList (← getItem fields "timestamps")
      let s ← decodeNum (← getItem fields "sum")
      let sq ← decodeNum (← getItem fields "sum_sq")
      let lt ← decodeOptTime (← getItem fields "last_timestamp")
      return ⟨vals, tss, s, sq, lt⟩
  | _ => .error .typeError

/-- Decoding the `for key, state in loaded_state.items()` loop entries in
order. -/
def decodeStateEntries : List (String × Json) → Except PyErr StateMap
  | [] => .ok []
  | e :: rest => do
      let fs ← decodeFieldState e.2
      let r ← decodeStateEntries rest
      return (e.1, fs) :: r

/-- Decoding the whole snapshot: `loaded_state.items()` requires an object
(`AttributeError` otherwise), then each entry is decoded in order. -/
def decodeStateMap (j : Json) : Except PyErr StateMap :=
  match j with
  | .obj entries => decodeStateEntries entries
  | _ => .error .attributeError

/-- What `load_data` finds at `state_path`. -/
inductive FileContent where
  | absent
  | unreadable
  | invalidJson
  | jsonContent (j : Json)

/-- State loading of `load_data` (`stdev_solution_a.py`, lines 54-73): a
missing file starts cold; `IOError` and `json.JSONDecodeError` are caught
and start cold; any other exception raised while decoding a parsed document
escapes as `Except.error`. -/
def load_data : FileContent → Except PyErr StateMap
  | .absent => .ok []
  | .unreadable => .ok []
  | .invalidJson => .ok []
  | .jsonContent j => decodeStateMap j

/-- Serialization of one state record (`stdev_solution_a.py`, lines
188-196). -/
def encodeFieldState (s : FieldState) : Json :=
  .obj [("values", .arr (s.values.map Json.num)),
    ("timestamps", .arr (s.timestamps.map Json.time)),
    ("sum", .num s.sum),
    ("sum_sq", .num s.sum_sq),
    ("last_timestamp", match s.last_timestamp with
      | some t => Json.time t
      | none => Json.null)]

/-- Serialization of the whole snapshot (`stdev_solution_a.py`, lines
186-200). -/
def encodeStateMap (m : StateMap) : Json :=
  .obj (m.map (fun e => (e.1, encodeFieldState e.2)))

theorem decodeNums_encode (vs : List ℚ) :
    decodeNums (vs.map Json.num) = .ok vs := by
  induction vs with
  | nil => rfl
  | cons v vt ih =>
      simp only [List.map_cons, decodeNums]
      rw [ih]
      rfl

theorem decodeNumList_encode (vs : List ℚ) :
    decodeNumList (.arr (vs.map Json.num)) = .ok vs := by
  unfold decodeNumList
  exact decodeNums_encode vs

theorem decodeTimes_encode (vs : List ℤ) :
    decodeTimes (vs.map Json.time) = .ok vs := by
  induction vs with
  | nil => rfl
  | cons v vt ih =>
      simp only [List.map_cons, decodeTimes]
      rw [ih]
      rfl

theorem decodeTimeList_encode (vs : List ℤ) :
    decodeTimeList (.arr (vs.map Json.time)) = .ok vs := by
  unfold decodeTimeList
  exact decodeTimes_encode vs

theorem decodeFieldState_encode (s : FieldState) :
    decodeFieldState (encodeFieldState s) = .ok s := by
  rcases s with ⟨vals, tss, sm, sq, lt⟩
  have h1 := decodeNumList_encode vals
  have h2 := decodeTimeList_encode tss
  cases lt with
  | none =>
      calc decodeFieldState (encodeFieldState ⟨vals, tss, sm, sq, none⟩)
          = (do
              let v ← decodeNumList (Json.arr (vals.map Json.num))
              let t ← decodeTimeList (Json.arr (tss.map Json.time))
              Except.ok (⟨v, t, sm, sq, none⟩ : FieldState)) := rfl
        _ = Except.ok (⟨vals, tss, sm, sq, none⟩ : FieldState) := by rw [h1, h2]; rfl
  | some t0 =>
      calc decodeFieldState (encodeFieldState ⟨vals, tss, sm, sq, some t0⟩)
          = (do
              let v ← decodeNumList (Json.arr (vals.map Json.num))
              let t ← decodeTimeList (Json.arr (tss.map Json.time))
              Except.ok (⟨v, t, sm, sq, some t0⟩ : FieldState)) := rfl
        _ = Except.ok (⟨vals, tss, sm, sq, some t0⟩ : FieldState) := by rw [h1, h2]; rfl

/-- Snapshot round trip: decoding a saved snapshot restores the state dict
exactly. -/
theorem decodeStateMap_encode (m : StateMap) :
    decodeStateMap (encodeStateMap m) = .ok m := by
  unfold decodeStateMap encodeStateMap
  induction m with
  | nil => rfl
  | cons e rest ih =>
      simp only [List.map_cons, decodeStateEntries, decodeFieldState_encode]
      simp only [List.map] at ih
      rw [show decodeStateEntries (rest.map (fun e => (e.1, encodeFieldState e.2))) =
        .ok rest from ih]
      rfl

/-! ### Positional characterization of the emissions -/

/-- The emission of `_update_state` at position `i` is determined by the
prefix up to `i`: it is the emission from the predicted state of that
prefix. -/
theorem updateState_getElem? (W : ℕ) (xs : List (ℚ × ℤ)) (i : ℕ)
    (hi : i < xs.length) :
    (updateState W emptyFieldState xs).2[i]? =
      some (emitVar W (predState W (xs.take (i + 1)))) := by
  conv_lhs => rw [show xs = xs.take (i + 1) ++ xs.drop (i + 1) from
    (List.take_append_drop _ _).symm]
  rw [updateState_append]
  have hlen : (updateState W emptyFieldState (xs.take (i + 1))).2.length = i + 1 := by
    rw [updateState_length, List.length_take]
    omega
  rw [List.getElem?_append]
  rw [if_pos (by omega)]
  have htake : xs.take (i + 1) = xs.take i ++ [xs.get ⟨i, hi⟩] := by
    rw [List.take_succ]
    congr
    rw [List.getElem?_eq_some.mpr ⟨hi, rfl⟩]
    rfl
  conv_lhs => rw [htake]
  rw [updateState_concat_out, ← htake]
  have hlen2 : (updateState W emptyFieldState (xs.take i)).2.length = i := by
    rw [updateState_length, List.length_take]
    omega
  have hcat := List.getElem?_concat_length
    (updateState W emptyFieldState (xs.take i)).2
    (emitVar W (predState W (xs.take (i + 1))))
  rw [hlen2] at hcat
  exact hcat

/-- The emission at position `i` is non-null exactly when the contiguous run
ending at `i` holds at least `window_size` samples; its value is then the
population variance of the trailing window. -/
theorem updateState_emission_iff (W : ℕ) (xs : List (ℚ × ℤ)) (i : ℕ)
    (hi : i < xs.length) :
    (∃ q, (updateState W emptyFieldState xs).2[i]? = some (some q)) ↔
      W ≤ (currentRun Prod.snd (xs.take (i + 1))).length := by
  rw [updateState_getElem? W xs i hi, emitVar_predState]
  constructor
  · rintro ⟨q, hq⟩
    by_contra hW
    rw [if_neg hW] at hq
    simp at hq
  · intro hW
    rw [if_pos hW]
    exact ⟨_, rfl⟩

/-! ### Gap-reset bounds -/

theorem extendRun_length_le (ts : α → ℤ) (acc : List α) (p : α) :
    (extendRun ts acc p).length ≤ acc.length + 1 := by
  rcases extendRun_eq_or ts acc p with h | h <;> rw [h] <;> simp

/-- The last element of a positive-length prefix. -/
theorem take_getLast? (xs : List α) (i : ℕ) (a : α) (ha : xs[i]? = some a) :
    (xs.take (i + 1)).getLast? = some a := by
  have hi : i < xs.length := (List.getElem?_eq_some.mp ha).1
  rw [List.take_succ, ha]
  exact List.getLast?_concat _

/-- After a contiguity violation between positions `p` and `p + 1`, the run
in progress at any later position `i` has at most `i - p` elements: the run
restarts at `p + 1`. -/
theorem currentRun_gap_bound (ts : α → ℤ) (xs : List α) (p : ℕ) (a b : α)
    (ha : xs[p]? = some a) (hb : xs[p + 1]? = some b)
    (hgap : ts b ≠ ts a + 1) :
    ∀ i, p < i → i < xs.length →
      (currentRun ts (xs.take (i + 1))).length ≤ i - p := by
  intro i
  induction i with
  | zero => omega
  | succ j ih =>
      intro hpj hjlen
      rcases hc : xs[j + 1]? with _ | c
      · exfalso
        rw [List.getElem?_eq_none_iff] at hc
        omega
      have htake : xs.take (j + 1 + 1) = xs.take (j + 1) ++ [c] := by
        rw [List.take_succ, hc]
        rfl
      rcases Nat.lt_or_ge p j with hpj2 | hpj2
      · have hrec := ih hpj2 (by omega)
        rw [htake, currentRun_append]
        calc (extendRun ts (currentRun ts (xs.take (j + 1))) c).length
            ≤ (currentRun ts (xs.take (j + 1))).length + 1 :=
              extendRun_length_le _ _ _
          _ ≤ j + 1 - p := by omega
      · have hpj3 : p = j := by omega
        subst hpj3
        rw [htake, currentRun_append]
        have hlastp : (currentRun ts (xs.take (p + 1))).getLast? = some a := by
          rw [currentRun_getLast?]
          exact take_getLast? xs p a ha
        have hcb : c = b := by
          rw [hc] at hb
          injection hb
        subst hcb
        rw [extendRun_eq_of ts hlastp, if_neg hgap]
        simp

/-! ### The accumulator/window invariant -/

/-- The invariant of the incremental state: the window is bounded by
`window_size`, the timestamps parallel the values, and the running sums are
the exact aggregates of the window contents. -/
def StateInv (W : ℕ) (s : FieldState) : Prop :=
  s.values.length ≤ W ∧ s.timestamps.length = s.values.length ∧
    s.sum = s.values.sum ∧ s.sum_sq = (s.values.map (fun x => x * x)).sum

theorem stateInv_empty (W : ℕ) : StateInv W emptyFieldState := by
  refine ⟨by simp [emptyFieldState], by simp [emptyFieldState], ?_, ?_⟩ <;>
    simp [emptyFieldState]

theorem gapReset_stateInv (W : ℕ) (s : FieldState) (t : ℤ) (h : StateInv W s) :
    StateInv W (gapReset s t) := by
  rcases hl : s.last_timestamp with _ | lt
  · rw [gapReset_none hl]
    exact h
  · by_cases hc : t = lt + 1
    · rw [gapReset_contiguous hl hc]
      exact h
    · rw [gapReset_gap hl hc]
      exact ⟨by simp, by simp, by simp, by simp⟩

theorem pushEvict_stateInv (W : ℕ) (s : FieldState) (v : ℚ) (t : ℤ)
    (h : StateInv W s) : StateInv W (pushEvict W s v t) := by
  obtain ⟨hlen, hts, hsum, hsq⟩ := h
  unfold pushEvict
  by_cases hfull : W < (s.values ++ [v]).length
  · rw [if_pos hfull]
    refine ⟨?_, ?_, ?_, ?_⟩
    · simp
      omega
    · simp [hts]
    · rcases hv : s.values with _ | ⟨v0, vrest⟩
      · simp [hv, hsum]
      · simp [hv, List.sum_append, hsum]
        ring
    · rcases hv : s.values with _ | ⟨v0, vrest⟩
      · simp [hv, hsq]
      · simp [hv, List.sum_append, hsq]
        ring
  · rw [if_neg hfull]
    refine ⟨?_, ?_, ?_, ?_⟩
    · simp at hfull ⊢
      omega
    · simp [hts]
    · simp [hsum, List.sum_append]
    · simp [hsq, List.sum_append]

theorem stepField_stateInv (W : ℕ) (s : FieldState) (v : ℚ) (t : ℤ)
    (h : StateInv W s) : StateInv W (stepField W s v t) :=
  pushEvict_stateInv W _ v t (gapReset_stateInv W s t h)

theorem updateState_stateInv (W : ℕ) (xs : List (ℚ × ℤ)) (s : FieldState)
    (h : StateInv W s) : StateInv W (updateState W s xs).1 := by
  induction xs generalizing s with
  | nil => exact h
  | cons p rest ih =>
      rcases p with ⟨v, t⟩
      exact ih _ (stepField_stateInv W s v t h)

/-! ### Claim theorems -/

/-- C3: Contiguity rule.  When `_update_state` processes a sample: with no
previous timestamp the sample is accepted into the (empty) window as is;
with a previous timestamp exactly one hour earlier it is accepted into the
existing window; for any other difference (zero, negative, or more than one
hour) the window contents, `sum` and `sum_sq` are cleared entirely and the
incoming sample starts a new window of size one. -/
theorem c3_contiguity_rule (W : ℕ) (hW : 0 < W) (s : FieldState) (v : ℚ) (t : ℤ) :
    (s.last_timestamp = none → stepField W s v t = pushEvict W s v t) ∧
    (∀ lt, s.last_timestamp = some lt → t = lt + 1 →
      stepField W s v t = pushEvict W s v t) ∧
    (∀ lt, s.last_timestamp = some lt → t ≠ lt + 1 →
      stepField W s v t =
        pushEvict W { s with values := [], timestamps := [], sum := 0, sum_sq := 0 } v t ∧
      (stepField W s v t).values = [v] ∧
      (stepField W s v t).timestamps = [t] ∧
      (stepField W s v t).sum = v ∧
      (stepField W s v t).sum_sq = v * v ∧
      (stepField W s v t).last_timestamp = some t) := by
  refine ⟨fun h => ?_, fun lt h hc => ?_, fun lt h hc => ?_⟩
  · unfold stepField
    rw [gapReset_none h]
  · unfold stepField
    rw [gapReset_contiguous h hc]
  · have hstep : stepField W s v t =
        pushEvict W { s with values := [], timestamps := [], sum := 0, sum_sq := 0 } v t := by
      unfold stepField
      rw [gapReset_gap h hc]
    refine ⟨hstep, ?_, ?_, ?_, ?_, ?_⟩ <;>
      · rw [hstep]
        unfold pushEvict
        rw [if_neg (by simp; omega)]
        try simp

theorem c3_contiguity_rule_witness :
    stepField 3 ⟨[5], [4], 5, 25, some 4⟩ 2 7 =
      pushEvict 3 ⟨[], [], 0, 0, some 4⟩ 2 7 ∧
    (stepField 3 ⟨[5], [4], 5, 25, some 4⟩ 2 7).values = [2] ∧
    (stepField 3 ⟨[5], [4], 5, 25, some 4⟩ 2 7).timestamps = [7] ∧
    (stepField 3 ⟨[5], [4], 5, 25, some 4⟩ 2 7).sum = 2 ∧
    (stepField 3 ⟨[5], [4], 5, 25, some 4⟩ 2 7).sum_sq = 2 * 2 ∧
    (stepField 3 ⟨[5], [4], 5, 25, some 4⟩ 2 7).last_timestamp = some 7 :=
  (c3_contiguity_rule 3 (by decide) ⟨[5], [4], 5, 25, some 4⟩ 2 7).2.2 4 rfl (by decide)

/-- C5: Resumability.  Saving the state dict after a first half and loading
it back restores it exactly (`load_data` on the serialized snapshot), and
processing the remaining samples from the restored state produces for the
second half exactly the emissions — and the final state — of one continuous
run over the full stream. -/
theorem c5_resumability (W : ℕ) (xs ys : List (ℚ × ℤ)) (m : StateMap) :
    load_data (FileContent.jsonContent (encodeStateMap m)) = Except.ok m ∧
    (updateState W emptyFieldState (xs ++ ys)).2 =
      (updateState W emptyFieldState xs).2 ++
        (updateState W (updateState W emptyFieldState xs).1 ys).2 ∧
    (updateState W emptyFieldState (xs ++ ys)).1 =
      (updateState W (updateState W emptyFieldState xs).1 ys).1 := by
  refine ⟨decodeStateMap_encode m, ?_, ?_⟩
  · rw [updateState_append]
  · rw [updateState_append]

/-- C7 (amended): Recovery from absent or unreadable snapshots.  A missing
state file, an `IOError` while reading, or a file that is not valid JSON
all fall back to the empty calculation state; but a readable, valid-JSON
document that does not match the snapshot schema raises an uncaught
exception (see the counterexample). -/
theorem c7_cold_start_recovery (c : FileContent)
    (h : ∀ j, c ≠ FileContent.jsonContent j) :
    load_data c = Except.ok [] := by
  cases c with
  | absent => rfl
  | unreadable => rfl
  | invalidJson => rfl
  | jsonContent j => exact absurd rfl (h j)

theorem c7_cold_start_recovery_witness :
    load_data FileContent.absent = Except.ok [] :=
  c7_cold_start_recovery FileContent.absent (fun _ h => FileContent.noConfusion h)

/-- C7 counterexample: a syntactically valid JSON document whose top level
is an array — a corrupted snapshot — makes `load_data` raise
`AttributeError` (from `loaded_state.items()`) instead of falling back to
the cold start: loading is not robust against every corruption. -/
theorem c7_counterexample :
    load_data (FileContent.jsonContent (Json.arr [])) =
      Except.error PyErr.attributeError := rfl

/-- C8: Accumulator/window invariant.  The empty state satisfies the
invariant (window bounded by `window_size`, `sum`/`sum_sq` the exact
aggregates of the window); every engine step — gap reset included —
preserves it; hence it holds after every processed sample. -/
theorem c8_accumulator_invariant (W : ℕ) :
    StateInv W emptyFieldState ∧
    (∀ s v t, StateInv W s → StateInv W (stepField W s v t)) ∧
    (∀ xs : List (ℚ × ℤ), StateInv W (updateState W emptyFieldState xs).1) :=
  ⟨stateInv_empty W, fun s v t h => stepField_stateInv W s v t h,
    fun xs => updateState_stateInv W xs emptyFieldState (stateInv_empty W)⟩

theorem c8_accumulator_invariant_witness :
    StateInv 3 (stepField 3 emptyFieldState 0 5) :=
  (c8_accumulator_invariant 3).2.1 emptyFieldState 0 5 (stateInv_empty 3)

/-- C2 (amended, incremental engine): a non-null statistic is emitted at
position `i` exactly when at least `window_size` mutually contiguous hourly
samples end at that position — never for a shorter (partial) window.  (The
as-of-join engine of `stdev_solution_b.py` violates this; see the
counterexample.) -/
theorem c2_no_partial_window (W : ℕ) (xs : List (ℚ × ℤ)) (i : ℕ)
    (hi : i < xs.length) :
    (∃ q, (updateState W emptyFieldState xs).2[i]? = some (some q)) ↔
      W ≤ (currentRun Prod.snd (xs.take (i + 1))).length :=
  updateState_emission_iff W xs i hi

theorem c2_no_partial_window_witness :
    ((∃ q, (updateState 2 emptyFieldState [(0, 4), (0, 5), (0, 9)]).2[2]? =
        some (some q)) ↔
      2 ≤ (currentRun Prod.snd ([(0, 4), (0, 5), (0, 9)].take 3)).length) :=
  c2_no_partial_window 2 [(0, 4), (0, 5), (0, 9)] 2 (by decide)

/-- C4: Variance/standard-deviation formula.  Whenever the incremental
engine emits a statistic, the window holds exactly `window_size` values and
the emitted standard deviation is
`sqrt(max(0, sum_of_squares / n - (sum / n)²))` — the population-variance
formula with divisor `n = window_size`, floored at zero before the square
root — where the sums range over the actual window contents. -/
theorem c4_variance_formula (W : ℕ) (xs : List (ℚ × ℤ)) (i : ℕ) (q : ℚ)
    (hq : (updateState W emptyFieldState xs).2[i]? = some (some q)) :
    ((windowOf W (xs.take (i + 1))).map Prod.fst).length = W ∧
    q = max 0 ((((windowOf W (xs.take (i + 1))).map Prod.fst).map
        (fun x => x * x)).sum / (W : ℚ) -
      (((windowOf W (xs.take (i + 1))).map Prod.fst).sum / (W : ℚ)) ^ 2) ∧
    (stdevStream W emptyFieldState xs)[i]? = some (some (Real.sqrt ((q : ℚ) : ℝ))) := by
  have hi : i < xs.length := by
    have h1 : i < (updateState W emptyFieldState xs).2.length :=
      (List.getElem?_eq_some.mp hq).1
    rwa [updateState_length] at h1
  have hpos := updateState_getElem? W xs i hi
  rw [hpos] at hq
  have hemit : emitVar W (predState W (xs.take (i + 1))) = some q := by
    injection hq
  rw [emitVar_predState] at hemit
  by_cases hr : W ≤ (currentRun Prod.snd (xs.take (i + 1))).length
  · rw [if_pos hr] at hemit
    have hqv : q = varPop ((windowOf W (xs.take (i + 1))).map Prod.fst) := by
      injection hemit with h
      exact h.symm
    have hwl : ((windowOf W (xs.take (i + 1))).map Prod.fst).length = W := by
      rw [List.length_map]
      unfold windowOf
      rw [lastN_length]
      omega
    refine ⟨hwl, ?_, ?_⟩
    · rw [hqv]
      rw [show ((W : ℕ) : ℚ) = (((windowOf W (xs.take (i + 1))).map Prod.fst).length : ℚ)
        from by rw [hwl]]
      rw [max_zero_moments]
    · unfold stdevStream
      rw [List.getElem?_map, hpos, hq]
      rfl
  · rw [if_neg hr] at hemit
    cases hemit

/-- C6: Gap-reset law.  After a contiguity violation between positions `p`
and `p + 1` of the per-field stream, the engine's window at every later
position draws only from samples after the gap (the run in progress is a
suffix of the post-gap samples), and no statistic is emitted before
`window_size` samples have been accepted after the gap. -/
theorem c6_gap_reset (W : ℕ) (xs : List (ℚ × ℤ)) (p : ℕ) (a b : ℚ × ℤ)
    (ha : xs[p]? = some a) (hb : xs[p + 1]? = some b)
    (hgap : b.2 ≠ a.2 + 1) :
    (∀ i, p < i → i < xs.length →
      (updateState W emptyFieldState (xs.take (i + 1))).1.values <:+
        ((xs.take (i + 1)).drop (p + 1)).map Prod.fst) ∧
    (∀ i, p < i → i < p + W → i < xs.length →
      (updateState W emptyFieldState xs).2[i]? = some none) := by
  have hbound := currentRun_gap_bound Prod.snd xs p a b ha hb hgap
  constructor
  · intro i hpi hilen
    rw [updateState_fst]
    show (windowOf W (xs.take (i + 1))).map Prod.fst <:+ _
    have htlen : (xs.take (i + 1)).length = i + 1 := by
      rw [List.length_take]
      omega
    have hsuf : currentRun Prod.snd (xs.take (i + 1)) <:+
        (xs.take (i + 1)).drop (p + 1) := by
      refine suffix_drop_of_length_le (currentRun_suffix _ _) ?_
      rw [htlen]
      have := hbound i hpi hilen
      omega
    have hsuf2 : windowOf W (xs.take (i + 1)) <:+
        (xs.take (i + 1)).drop (p + 1) :=
      (lastN_suffix W _).trans hsuf
    exact hsuf2.map Prod.fst
  · intro i hpi hiW hilen
    rw [updateState_getElem? W xs i hilen, emitVar_predState]
    rw [if_neg]
    have := hbound i hpi hilen
    omega

theorem c6_gap_reset_witness :
    ((updateState 2 emptyFieldState ([(0, 4), (0, 9), (0, 10)].take 2)).1.values <:+
      (([((0 : ℚ), (4 : ℤ)), (0, 9), (0, 10)].take 2).drop 1).map Prod.fst) ∧
    (updateState 2 emptyFieldState [((0 : ℚ), (4 : ℤ)), (0, 9), (0, 10)]).2[1]? =
      some none :=
  ⟨(c6_gap_reset 2 [(0, 4), (0, 9), (0, 10)] 0 (0, 4) (0, 9) rfl rfl
      (by decide)).1 1 (by decide) (by decide),
    (c6_gap_reset 2 [(0, 4), (0, 9), (0, 10)] 0 (0, 4) (0, 9) rfl rfl
      (by decide)).2 1 (by decide) (by decide) (by decide)⟩

theorem c4_variance_formula_witness_eval :
    (updateState 2 emptyFieldState [((0 : ℚ), (0 : ℤ)), (0, 1)]).2[1]? =
      some (some 0) := by
  norm_num [updateState, stepField, gapReset, pushEvict, emptyFieldState,
    emitVar, max_def]

theorem c4_variance_formula_witness :
    ((windowOf 2 ([((0 : ℚ), (0 : ℤ)), (0, 1)].take 2)).map Prod.fst).length = 2 ∧
    (0 : ℚ) = max 0 ((((windowOf 2 ([((0 : ℚ), (0 : ℤ)), (0, 1)].take 2)).map
        Prod.fst).map (fun x => x * x)).sum / (2 : ℚ) -
      (((windowOf 2 ([((0 : ℚ), (0 : ℤ)), (0, 1)].take 2)).map Prod.fst).sum /
        (2 : ℚ)) ^ 2) ∧
    (stdevStream 2 emptyFieldState [((0 : ℚ), (0 : ℤ)), (0, 1)])[1]? =
      some (some (Real.sqrt (((0 : ℚ) : ℚ) : ℝ))) :=
  c4_variance_formula 2 [((0 : ℚ), (0 : ℤ)), (0, 1)] 1 0
    c4_variance_formula_witness_eval

theorem list_sum_const {xs : List ℚ} {v : ℚ} (h : ∀ x ∈ xs, x = v) :
    xs.sum = xs.length * v := by
  induction xs with
  | nil => simp
  | cons a t ih =>
      have ha : a = v := h a (List.mem_cons_self a t)
      rw [List.sum_cons, ih (fun x hx => h x (List.mem_cons_of_mem a hx)), ha,
        List.length_cons]
      push_cast
      ring

theorem varPop_const {xs : List ℚ} {v : ℚ} (h : ∀ x ∈ xs, x = v) :
    varPop xs = 0 := by
  rcases hxs : xs with _ | ⟨a, t⟩
  · simp [varPop]
  · rw [← hxs]
    have hne : ((xs.length : ℚ)) ≠ 0 := by
      rw [hxs]
      simp
      positivity
    have hm : mean xs = v := by
      unfold mean
      rw [list_sum_const h, mul_comm, mul_div_assoc, div_self hne, mul_one]
    unfold varPop
    rw [hm]
    have hz : (xs.map (fun x => (x - v) ^ 2)).sum = 0 := by
      refine List.sum_eq_zero ?_
      intro y hy
      rcases List.mem_map.mp hy with ⟨x, hx, rfl⟩
      rw [h x hx]
      ring
    rw [hz, zero_div]

/-- A stream of `n` identical values at contiguous hourly timestamps. -/
def constStream (v : ℚ) (t0 : ℤ) (n : ℕ) : List (ℚ × ℤ) :=
  (List.range n).map (fun k : ℕ => (v, t0 + (k : ℤ)))

theorem constStream_length (v : ℚ) (t0 : ℤ) (n : ℕ) :
    (constStream v t0 n).length = n := by
  simp [constStream]

theorem currentRun_constStream (v : ℚ) (t0 : ℤ) (n : ℕ) :
    currentRun Prod.snd (constStream v t0 n) = constStream v t0 n := by
  induction n with
  | zero => rfl
  | succ m ih =>
      have hsplit : constStream v t0 (m + 1) =
          constStream v t0 m ++ [(v, t0 + (m : ℤ))] := by
        unfold constStream
        rw [List.range_succ, List.map_append, List.map_singleton]
      rw [hsplit, currentRun_append, ih]
      rcases m with _ | k
      · rfl
      · have hlast : (constStream v t0 (k + 1)).getLast? =
            some (v, t0 + (k : ℤ)) := by
          unfold constStream
          rw [List.range_succ, List.map_append, List.map_singleton,
            List.getLast?_concat]
        rw [extendRun_eq_of Prod.snd hlast, if_pos (by push_cast; ring)]

/-- C9: Zero-variance boundary.  A full window of `window_size` identical,
contiguous values makes the engine emit a standard deviation of exactly
zero — and every emitted variance is nonnegative, so the value under the
square root is never negative (no NaN). -/
theorem c9_zero_variance (W : ℕ) (hW : 0 < W) (v : ℚ) (t0 : ℤ) :
    (stdevStream W emptyFieldState (constStream v t0 W))[W - 1]? =
      some (some 0) ∧
    (∀ (xs : List (ℚ × ℤ)) (i : ℕ) (q : ℚ),
      (updateState W emptyFieldState xs).2[i]? = some (some q) → 0 ≤ q) := by
  constructor
  · have hlen := constStream_length v t0 W
    have hi : W - 1 < (constStream v t0 W).length := by
      rw [hlen]
      omega
    unfold stdevStream
    rw [List.getElem?_map, updateState_getElem? _ _ _ hi]
    have hW1 : W - 1 + 1 = W := by omega
    rw [hW1, List.take_of_length_le (by rw [hlen]), emitVar_predState]
    rw [currentRun_constStream v t0 W, hlen, if_pos (le_refl W)]
    have hwin : (windowOf W (constStream v t0 W)).map Prod.fst =
        (constStream v t0 W).map Prod.fst := by
      unfold windowOf
      rw [currentRun_constStream v t0 W, lastN_of_length_le (by rw [hlen])]
    rw [hwin]
    have hvar : varPop ((constStream v t0 W).map Prod.fst) = 0 := by
      refine @varPop_const _ v ?_
      intro x hx
      rcases List.mem_map.mp hx with ⟨p, hp, rfl⟩
      rcases List.mem_map.mp hp with ⟨k, hk, rfl⟩
      rfl
    rw [hvar]
    simp [Real.sqrt_zero]
  · intro xs i q hq
    have hi : i < xs.length := by
      have h1 : i < (updateState W emptyFieldState xs).2.length :=
        (List.getElem?_eq_some.mp hq).1
      rwa [updateState_length] at h1
    rw [updateState_getElem? W xs i hi, emitVar_predState] at hq
    by_cases hr : W ≤ (currentRun Prod.snd (xs.take (i + 1))).length
    · rw [if_pos hr] at hq
      have : varPop ((windowOf W (xs.take (i + 1))).map Prod.fst) = q := by
        injection hq with h
        injection h
      rw [← this]
      exact varPop_nonneg _
    · rw [if_neg hr] at hq
      injection hq with h
      cases h

theorem c9_zero_variance_witness :
    (stdevStream 3 emptyFieldState (constStream 7 0 3))[3 - 1]? =
      some (some 0) :=
  (c9_zero_variance 3 (by decide) 7 0).1

theorem processA_rows_in_range (W : ℕ) (startT endT : ℤ) :
    ∀ (groups : List (String × List Sample)) (m : StateMap),
      ∀ r ∈ (processA W startT endT m groups).1, startT ≤ r.ts ∧ r.ts ≤ endT := by
  intro groups
  induction groups with
  | nil =>
      intro m r hr
      simp [processA] at hr
  | cons g gs ih =>
      intro m r hr
      rcases g with ⟨sec, ss⟩
      unfold processA at hr
      by_cases hke : (ss.filter (fun s => decide (startT - 168 ≤ s.ts))).isEmpty
      · rw [if_pos hke] at hr
        exact ih m r hr
      · rw [if_neg hke] at hr
        simp only [List.mem_append] at hr
        rcases hr with hr | hr
        · have hmem := List.mem_filter.mp hr
          have := hmem.2
          unfold inRangeRow at this
          simp at this
          exact this
        · exact ih _ r hr

/-- C10: Post-end state folding.  `process(start, end)` returns only rows
with `start ≤ timestamp ≤ end`, yet the state it leaves behind — the
snapshot that is then persisted — is the fold of `_update_state` over every
loaded sample with `timestamp ≥ start − 7 days`, with no upper bound: the
filter on line 155 of `stdev_solution_a.py` has no `≤ end` clause, so
samples strictly after `end` are folded into `calculation_state`. -/
theorem c10_post_end_folding (W : ℕ) (startT endT : ℤ) (m : StateMap)
    (groups : List (String × List Sample)) (sec : String) (ss : List Sample)
    (hne : ss.filter (fun s => decide (startT - 168 ≤ s.ts)) ≠ []) :
    (∀ r ∈ (processA W startT endT m groups).1, startT ≤ r.ts ∧ r.ts ≤ endT) ∧
    getState (processA W startT endT m [(sec, ss)]).2 (stateKey sec "bid") =
      (updateState W (getState m (stateKey sec "bid"))
        (fieldPairs Sample.bid
          (ss.filter (fun s => decide (startT - 168 ≤ s.ts))))).1 := by
  constructor
  · exact processA_rows_in_range W startT endT groups m
  · unfold processA
    rw [if_neg (by simpa [List.isEmpty_iff] using hne)]
    show getState (setState (setState (setState m _ _) _ _) _ _) _ = _
    rw [getState_set_ne _ _ (@stateKey_ne_field sec "bid" "ask" rfl (by decide)),
      getState_set_ne _ _ (@stateKey_ne_field sec "bid" "mid" rfl (by decide)),
      getState_set_same]
    rfl

theorem c10_post_end_folding_witness :
    (∀ r ∈ (processA 1 0 10 [] [("S", [⟨"S", 0, 1, 1, 1⟩, ⟨"S", 300, 2, 2, 2⟩])]).1,
      (0 : ℤ) ≤ r.ts ∧ r.ts ≤ 10) ∧
    getState (processA 1 0 10 []
        [("S", [⟨"S", 0, 1, 1, 1⟩, ⟨"S", 300, 2, 2, 2⟩])]).2 (stateKey "S" "bid") =
      (updateState 1 (getState [] (stateKey "S" "bid"))
        (fieldPairs Sample.bid
          ([⟨"S", 0, 1, 1, 1⟩, ⟨"S", 300, 2, 2, 2⟩].filter
            (fun s => decide ((0 : ℤ) - 168 ≤ s.ts))))).1 :=
  c10_post_end_folding 1 0 10 [] [("S", [⟨"S", 0, 1, 1, 1⟩, ⟨"S", 300, 2, 2, 2⟩])]
    "S" [⟨"S", 0, 1, 1, 1⟩, ⟨"S", 300, 2, 2, 2⟩] (by decide)

/-- The standard-deviation view of a non-null result row: key plus
`np.sqrt` of the three variances. -/
noncomputable def rowStdev (r : Row) : String × ℤ × ℝ × ℝ × ℝ :=
  (r.security_id, r.ts, Real.sqrt ((r.bid_stdev : ℚ) : ℝ),
    Real.sqrt ((r.mid_stdev : ℚ) : ℝ), Real.sqrt ((r.ask_stdev : ℚ) : ℝ))

/-- C1 (amended): Incremental/batch equivalence holds — exactly, not merely
within tolerance — between the incremental engine (`stdev_solution_a.py`)
and the vectorized engine (`stdev_solution.py`): same rows, hence the same
`(entity, timestamp)` key set and equal standard deviations.  The as-of-join
engine (`stdev_solution_b.py`) does not satisfy this; see the
counterexample. -/
theorem c1_incremental_batch_equivalence (W : ℕ) (startT endT : ℤ)
    (groups : List (String × List Sample))
    (hdist : groups.Pairwise (fun g g' => g.1 ≠ g'.1))
    (hsort : ∀ g ∈ groups, g.2.Pairwise (fun a b => a.ts < b.ts)) :
    denseRows (processA W startT endT [] groups).1 =
      processSol W startT endT groups ∧
    resultKeys (denseRows (processA W startT endT [] groups).1) =
      resultKeys (processSol W startT endT groups) ∧
    (denseRows (processA W startT endT [] groups).1).map rowStdev =
      (processSol W startT endT groups).map rowStdev := by
  have h := processA_eq_processSol W startT endT groups []
    (fun g _ => ⟨rfl, rfl, rfl⟩) hdist hsort
  exact ⟨h, by rw [h], by rw [h]⟩

theorem c1_incremental_batch_equivalence_witness :
    (denseRows (processA 2 0 10 []
        [("A", [⟨"A", 0, 1, 1, 1⟩, ⟨"A", 1, 1, 1, 1⟩]),
          ("B", [⟨"B", 5, 2, 2, 2⟩])]).1 =
      processSol 2 0 10
        [("A", [⟨"A", 0, 1, 1, 1⟩, ⟨"A", 1, 1, 1, 1⟩]),
          ("B", [⟨"B", 5, 2, 2, 2⟩])]) ∧
    (resultKeys (denseRows (processA 2 0 10 []
        [("A", [⟨"A", 0, 1, 1, 1⟩, ⟨"A", 1, 1, 1, 1⟩]),
          ("B", [⟨"B", 5, 2, 2, 2⟩])]).1) =
      resultKeys (processSol 2 0 10
        [("A", [⟨"A", 0, 1, 1, 1⟩, ⟨"A", 1, 1, 1, 1⟩]),
          ("B", [⟨"B", 5, 2, 2, 2⟩])])) ∧
    ((denseRows (processA 2 0 10 []
        [("A", [⟨"A", 0, 1, 1, 1⟩, ⟨"A", 1, 1, 1, 1⟩]),
          ("B", [⟨"B", 5, 2, 2, 2⟩])]).1).map rowStdev =
      (processSol 2 0 10
        [("A", [⟨"A", 0, 1, 1, 1⟩, ⟨"A", 1, 1, 1, 1⟩]),
          ("B", [⟨"B", 5, 2, 2, 2⟩])]).map rowStdev) :=
  c1_incremental_batch_equivalence 2 0 10
    [("A", [⟨"A", 0, 1, 1, 1⟩, ⟨"A", 1, 1, 1, 1⟩]), ("B", [⟨"B", 5, 2, 2, 2⟩])]
    (by decide) (by decide)

/-! ### Counterexample stream for C1/C2

One security `"S"` with 20 contiguous hourly samples at hours 0..19 (all
prices 1) followed by one sample at hour 21 (a 2-hour gap), reporting range
`[21, 21]`, window 20.  The incremental and vectorized engines emit nothing
non-null at hour 21 (the gap reset leaves a window of size 1); the
as-of-join engine emits a non-null record at hour 21 carried forward from
the completion at hour 19. -/

def cxSample (k : ℤ) : Sample := { sec := "S", ts := k, bid := 1, mid := 1, ask := 1 }

def cxSamples : List Sample :=
  ((List.range 20).map (fun k : ℕ => cxSample (k : ℤ))) ++ [cxSample 21]

def cxGroups : List (String × List Sample) := [("S", cxSamples)]

theorem varSamp_const {xs : List ℚ} {v : ℚ} (h : ∀ x ∈ xs, x = v) :
    varSamp xs = 0 := by
  rcases hxs : xs with _ | ⟨a, t⟩
  · simp [varSamp]
  · rw [← hxs]
    have hne : ((xs.length : ℚ)) ≠ 0 := by
      rw [hxs]
      simp
      positivity
    have hm : mean xs = v := by
      unfold mean
      rw [list_sum_const h, mul_comm, mul_div_assoc, div_self hne, mul_one]
    unfold varSamp
    rw [hm]
    have hz : (xs.map (fun x => (x - v) ^ 2)).sum = 0 := by
      refine List.sum_eq_zero ?_
      intro y hy
      rcases List.mem_map.mp hy with ⟨x, hx, rfl⟩
      rw [h x hx]
      ring
    rw [hz, zero_div]

set_option maxRecDepth 10000 in
set_option maxHeartbeats 1000000 in
theorem cx_completions : completionsB cxSamples = [(19, 0, 0, 0)] := by
  have hvs : varSamp [(1 : ℚ), 1, 1, 1, 1, 1, 1, 1, 1, 1, 1, 1, 1, 1, 1, 1, 1, 1,
      1, 1] = 0 :=
    @varSamp_const _ 1 (by decide)
  norm_num [completionsB, cxSamples, cxSample, List.range_succ, splitRuns, addRun,
    lastN, hvs, List.filterMap_cons, List.filterMap_nil]

set_option maxRecDepth 10000 in
set_option maxHeartbeats 1000000 in
theorem cx_processB :
    denseRows (processB 21 21 cxGroups) = [⟨"S", 21, 0, 0, 0⟩] := by
  have h21 : cxSamples.filter
      (fun s => decide ((21 : ℤ) ≤ s.ts) && decide (s.ts ≤ (21 : ℤ))) =
      [cxSample 21] := by
    norm_num [cxSamples, cxSample, List.range_succ]
  norm_num [processB, cxGroups, processEntityB, cx_completions, h21, cxSample,
    denseRows, List.filterMap_cons, List.filterMap_nil]

set_option maxRecDepth 10000 in
set_option maxHeartbeats 1000000 in
theorem cx_processSol : processSol 20 21 21 cxGroups = [] := by
  norm_num [processSol, cxGroups, processEntitySol, cxSamples, cxSample,
    List.range_succ, splitRuns, addRun, runEmit]

/-- C1 counterexample: on 20 contiguous samples at hours 0..19 followed by a
sample at hour 21 (range `[21, 21]`, window 20), the incremental engine
emits no non-null record, while the as-of-join engine of
`stdev_solution_b.py` emits a non-null record at `("S", 21)` carried forward
from the completion at hour 19: the engines do not produce the same key
set. -/
theorem c1_counterexample :
    resultKeys (denseRows (processA 20 21 21 [] cxGroups).1) ≠
      resultKeys (denseRows (processB 21 21 cxGroups)) := by
  have hA : denseRows (processA 20 21 21 [] cxGroups).1 =
      processSol 20 21 21 cxGroups :=
    processA_eq_processSol 20 21 21 cxGroups [] (fun g _ => ⟨rfl, rfl, rfl⟩)
      (by decide) (by decide)
  rw [hA, cx_processSol, cx_processB]
  simp [resultKeys]

/-- C2 counterexample: the as-of-join engine emits a non-null record at
hour 21 although only one contiguous sample (far fewer than the window size
20) ends at hour 21 — its non-null records are not window completions. -/
theorem c2_counterexample :
    denseRows (processB 21 21 cxGroups) = [⟨"S", 21, 0, 0, 0⟩] ∧
    (currentRun Sample.ts cxSamples).length = 1 ∧ (1 : ℕ) < 20 := by
  refine ⟨cx_processB, ?_, by decide⟩
  have hsplit : cxSamples =
      ((List.range 20).map (fun k : ℕ => cxSample (k : ℤ))) ++ [cxSample 21] := rfl
  have hlast : (((List.range 20).map (fun k : ℕ => cxSample (k : ℤ)))).getLast? =
      some (cxSample 19) := by
    rw [show (20 : ℕ) = 19 + 1 from rfl, List.range_succ, List.map_append,
      List.map_singleton, List.getLast?_concat]
    norm_num
  have hclast : (currentRun Sample.ts
      ((List.range 20).map (fun k : ℕ => cxSample (k : ℤ)))).getLast? =
      some (cxSample 19) := by
    rw [currentRun_getLast?, hlast]
  rw [hsplit, currentRun_append, extendRun_eq_of Sample.ts hclast, if_neg (by decide)]
  rfl
